import Mathlib

/-!
# Verification of the nakamoto light-client core against its specification

This file gives a shallow embedding of the nakamoto light client's core, in
two parts:

* the orchestration layer of `src/client/src/client.rs` (client startup,
  store initialization, and the request/response handle), embedded as pure
  functions over explicit "world" records holding the outcome of each
  effectful step;
* the Header Store and Block Tree, which the repository's sources only
  call into: those are modelled from the specification's words (each such
  definition carries a doc comment starting `Modelled from the spec:`).

Theorems at the end settle the frozen claims about this program.
-/

set_option maxRecDepth 16000

namespace Nakamoto

/-! ## Headers

The spec's data model (§3): a header is version, previous-block reference,
merkle root, timestamp, difficulty bits and nonce; its identity is a hash
derived deterministically from these fields.  Hashes are modelled as natural
numbers, and the hash function as an injective pairing of the six fields. -/

structure Header where
  version : Nat
  prevBlock : Nat
  merkleRoot : Nat
  time : Nat
  bits : Nat
  nonce : Nat
deriving DecidableEq, Repr

/-- Modelled from the spec: "Identity = its own hash, derived
deterministically from these fields."  An injective encoding of the six
fields into a natural number. -/
def headerHash (h : Header) : Nat :=
  Nat.pair h.version (Nat.pair h.prevBlock (Nat.pair h.merkleRoot
    (Nat.pair h.time (Nat.pair h.bits h.nonce))))

/-! ## Network parameters

Modelled from the spec: the network supplies the genesis header, the
checkpoint set (height, expected-hash pairs), the decoding of difficulty
bits into a target, the difficulty-adjustment rule ("recomputed from the
ancestor window", hence a function of the ancestor chain), the work value
implied by a difficulty target, the median-time-past window and the
bounded timestamp drift. -/

structure Network where
  genesis : Header
  checkpoints : List (Nat × Nat)
  decodeTarget : Nat → Nat
  requiredBits : List Header → Nat
  work : Nat → Nat
  medianWindow : Nat
  maxDrift : Nat

/-- Checkpoint lookup by height: the expected hash at a checkpointed
height, if any. -/
def lookupCheckpoint (net : Network) (height : Nat) : Option Nat :=
  (net.checkpoints.find? (fun p => p.1 == height)).map (·.2)

/-! ## Header Store (spec §4.1)

Modelled from the spec: "append-only, file-backed persistence for a linear
sequence of headers", a "linear, fixed-width, append-only log" whose
`check()` "validates structural integrity (e.g., record count divides
evenly into the expected fixed-size header record …); returns a Corruption
error identifying the first bad offset", and whose `heal()` "truncates the
store back to the last structurally valid record, discarding any partial
trailing write".  The file is a byte list; `w` is the fixed record width. -/

structure StoreFile where
  data : List Nat
deriving DecidableEq, Repr

namespace Store

/-- Modelled from the spec: `check()` validates that the byte length
divides evenly into fixed-width records; on failure the error identifies
the first bad offset (the start of the trailing partial record). -/
def check (w : Nat) (s : StoreFile) : Except Nat Unit :=
  if s.data.length % w = 0 then .ok () else .error (s.data.length - s.data.length % w)

/-- Modelled from the spec: `heal()` truncates the store back to the last
structurally valid record, discarding any partial trailing write. -/
def heal (w : Nat) (s : StoreFile) : StoreFile :=
  ⟨s.data.take (s.data.length - s.data.length % w)⟩

/-- Modelled from the spec: `height()` returns the highest stored index
(records are indexed from 0, genesis at height 0). -/
def height (w : Nat) (s : StoreFile) : Nat :=
  s.data.length / w - 1

/-- Modelled from the spec: `create(path, genesis)` "fails with
AlreadyExists if a store already exists at the path"; otherwise it
initializes a new store seeded with the genesis record.  The filesystem is
a list of occupied paths. -/
def create (existing : List Nat) (path : Nat) (genesisRecord : List Nat) :
    Except String StoreFile :=
  if path ∈ existing then .error "AlreadyExists" else .ok ⟨genesisRecord⟩

end Store

/-! ## Client startup (`Client::run`, src/client/src/client.rs lines 130-213)

The startup sequence is embedded as a pure function over a `RunWorld`
record holding the outcome of each effectful call, and it returns the
ordered trace of steps it performed together with the final result.
`panic!` (line 152 / line 180) is modelled as the `panicked` outcome,
which carries nothing and ends the run. -/

inductive Step
  | createHeaderStore | openHeaderStore | checkStore | healStore | readHeight
  | buildTree | createFilterStore | openFilterStore | verifyFilters
  | healFilters | runReactor
deriving DecidableEq, Repr

/-- The store-creation error as `Client::run` discriminates it: an I/O
error of kind `AlreadyExists` (matched at lines 148 and 176), any other
error (the `panic!` arms), or success. -/
inductive CreateErr
  | ioAlreadyExists
  | other (code : Nat)
deriving DecidableEq, Repr

instance {ε α : Type} [DecidableEq ε] [DecidableEq α] : DecidableEq (Except ε α) := fun x y =>
  match x, y with
  | .ok a, .ok b => decidable_of_iff (a = b) (by simp)
  | .ok _, .error _ => isFalse (by simp)
  | .error _, .ok _ => isFalse (by simp)
  | .error e, .error f => decidable_of_iff (e = f) (by simp)

/-- Outcomes of the effectful calls `Client::run` makes, in program order. -/
structure RunWorld where
  createHeaders : Except CreateErr Unit
  openHeaders : Except Nat Unit
  checkFails : Bool
  healHeaders : Except Nat Unit
  readHeight : Except Nat Unit
  buildCache : Except Nat Unit
  createFilters : Except CreateErr Unit
  openFilters : Except Nat Unit
  verifyFilters : Except Nat Unit
  reactorRun : Except Nat Unit
deriving DecidableEq, Repr

inductive RunResult
  | ok
  | err (stage : Step) (code : Nat)
  | panicked
deriving DecidableEq, Repr

/-- Lines 162-213: read the store height, build the block cache
(`BlockCache::from`), create-or-open the filter store, verify the filter
cache, and run the reactor. -/
def afterHeal (w : RunWorld) : List Step × RunResult :=
  match w.readHeight with
  | .error c => ([.readHeight], .err .readHeight c)
  | .ok _ =>
  match w.buildCache with
  | .error c => ([.readHeight, .buildTree], .err .buildTree c)
  | .ok _ =>
  match w.createFilters with
  | .error (.other _) => ([.readHeight, .buildTree, .createFilterStore], .panicked)
  | .error .ioAlreadyExists =>
    match w.openFilters with
    | .error c => ([.readHeight, .buildTree, .createFilterStore, .openFilterStore],
        .err .openFilterStore c)
    | .ok _ =>
      match w.verifyFilters with
      | .error c => ([.readHeight, .buildTree, .createFilterStore, .openFilterStore,
          .verifyFilters], .err .verifyFilters c)
      | .ok _ =>
        match w.reactorRun with
        | .error c => ([.readHeight, .buildTree, .createFilterStore, .openFilterStore,
            .verifyFilters, .runReactor], .err .runReactor c)
        | .ok _ => ([.readHeight, .buildTree, .createFilterStore, .openFilterStore,
            .verifyFilters, .runReactor], .ok)
  | .ok _ =>
    match w.verifyFilters with
    | .error c => ([.readHeight, .buildTree, .createFilterStore, .verifyFilters],
        .err .verifyFilters c)
    | .ok _ =>
      match w.reactorRun with
      | .error c => ([.readHeight, .buildTree, .createFilterStore, .verifyFilters,
          .runReactor], .err .runReactor c)
      | .ok _ => ([.readHeight, .buildTree, .createFilterStore, .verifyFilters,
          .runReactor], .ok)

/-- Lines 158-161: `if store.check().is_err() { store.heal()?; }` — healing
is attempted exactly when `check()` reports corruption, and a heal failure
propagates out of `run`. -/
def afterCheck (w : RunWorld) : List Step × RunResult :=
  if w.checkFails then
    match w.healHeaders with
    | .error c => ([.checkStore, .healStore], .err .healStore c)
    | .ok _ => (.checkStore :: .healStore :: (afterHeal w).1, (afterHeal w).2)
  else (.checkStore :: (afterHeal w).1, (afterHeal w).2)

/-- Lines 146-157: `store::File::create` is attempted; an `Io` error of
kind `AlreadyExists` falls back to `store::File::open` on the same path
(never overwriting the existing store); any other creation error hits the
`panic!` arm; then the check/heal sequence runs. -/
def clientRun (w : RunWorld) : List Step × RunResult :=
  match w.createHeaders with
  | .ok _ => (.createHeaderStore :: (afterCheck w).1, (afterCheck w).2)
  | .error .ioAlreadyExists =>
    match w.openHeaders with
    | .error c => ([.createHeaderStore, .openHeaderStore], .err .openHeaderStore c)
    | .ok _ =>
      (.createHeaderStore :: .openHeaderStore :: (afterCheck w).1, (afterCheck w).2)
  | .error (.other _) => ([.createHeaderStore], .panicked)

/-- The run reached the header-store stage: creation succeeded, or it
failed with `AlreadyExists` and the fallback open succeeded. -/
def storeOpened (w : RunWorld) : Prop :=
  w.createHeaders = .ok () ∨
    (w.createHeaders = .error .ioAlreadyExists ∧ w.openHeaders = .ok ())

instance (w : RunWorld) : Decidable (storeOpened w) := by
  unfold storeOpened; infer_instance

/-- The run reached the filter-verification stage. -/
def reachedFilters (w : RunWorld) : Prop :=
  storeOpened w ∧ (w.checkFails = true → w.healHeaders = .ok ()) ∧
    w.readHeight = .ok () ∧ w.buildCache = .ok () ∧
    (w.createFilters = .ok () ∨
      (w.createFilters = .error .ioAlreadyExists ∧ w.openFilters = .ok ()))

instance (w : RunWorld) : Decidable (reachedFilters w) := by
  unfold reachedFilters; infer_instance

/-! ## The client handle (`ClientHandle`, src/client/src/client.rs lines 260-434)

Handle operations send a command over the command channel and then either
block on a dedicated response channel (`recv()`, which never consults the
handle's timeout) or poll the event feed through `wait`, which does.  The
channel world supplies the outcome of each channel call. -/

inductive HandleError
  | timeout
  | disconnected
  | wakeFailed
deriving DecidableEq, Repr

/-- Modelled from the spec: the conversion of a crossbeam send/recv error
into `handle::Error` (handle.rs is not among the sources); a channel
send/receive fails only when the other side has disconnected, so the
conversion yields the disconnection error, never the timeout error. -/
def ofChannelErr (_code : Nat) : HandleError := .disconnected

/-- Outcomes of the channel operations a single handle call performs. -/
structure ChanWorld (α : Type) where
  sendResult : Except Nat Unit
  wakeResult : Except Nat Unit
  recvResult : Except Nat α
deriving Repr

/-- Lines 274-280: `command` sends on the command channel and wakes the
reactor; either failure is converted, never into a timeout. -/
def commandM {α : Type} (w : ChanWorld α) : Except HandleError Unit :=
  match w.sendResult with
  | .error c => .error (ofChannelErr c)
  | .ok _ =>
    match w.wakeResult with
    | .error _ => .error .wakeFailed
    | .ok _ => .ok ()

/-- Lines 283-288: `get_tip` sends `Command::GetTip` and blocks on
`receive.recv()` with no timeout. -/
def getTipM (w : ChanWorld Header) : Except HandleError Header :=
  match commandM w with
  | .error e => .error e
  | .ok _ =>
    match w.recvResult with
    | .error c => .error (ofChannelErr c)
    | .ok h => .ok h

/-- Lines 312-317: `query` sends `Command::Query` and blocks on
`receive.recv()` with no timeout. -/
def queryM (w : ChanWorld (Option Nat)) : Except HandleError (Option Nat) :=
  match commandM w with
  | .error e => .error e
  | .ok _ =>
    match w.recvResult with
    | .error c => .error (ofChannelErr c)
    | .ok a => .ok a

/-- An import-headers response as the protocol returns it (the payload type
is irrelevant to the handle; a code stands for it). -/
def ImportResponse : Type := Except Nat Nat
deriving instance Repr for ImportResponse

/-- Lines 343-351: `import_headers` sends `Command::ImportHeaders` and
blocks on `receive.recv()` with no timeout. -/
def importHeadersM (w : ChanWorld ImportResponse) : Except HandleError ImportResponse :=
  match commandM w with
  | .error e => .error e
  | .ok _ =>
    match w.recvResult with
    | .error c => .error (ofChannelErr c)
    | .ok a => .ok a

/-- An event on the handle's event feed, as `wait_for_peers` discriminates
them: a connection-manager Connected event with the peer's address, or
anything else. -/
inductive PEvent
  | connected (addr : Nat)
  | other
deriving DecidableEq, Repr

/-- Lines 361-388: `wait` polls the event feed against the configured
timeout.  The feed is a list of (arrival time, event) pairs in arrival
order; after it is exhausted the channel is silent, or disconnected when
`closed` holds.  An event arriving after the deadline means the budget ran
out first (`Error::Timeout`). -/
def waitModel {T : Type} (timeout : Nat) (closed : Bool) (f : PEvent → Option T) :
    List (Nat × PEvent) → Except HandleError T
  | [] => if closed then .error .disconnected else .error .timeout
  | (t, e) :: rest =>
    if timeout < t then .error .timeout
    else
      match f e with
      | some x => .ok x
      | none => waitModel timeout closed f rest

/-- Lines 390-409: the closure `wait_for_peers` passes to `wait`.  The
`connected` set is created empty on each invocation of the closure (the
`let mut connected = HashSet::new()` sits inside the closure body), so it
holds at most the one address just inserted. -/
def waitForPeersCheck (count : Nat) (e : PEvent) : Option Unit :=
  match e with
  | .connected a =>
    let connected : List Nat := []
    let connected := if a ∈ connected then connected else a :: connected
    if connected.length = count then some () else none
  | .other => none

/-- Lines 390-409: `wait_for_peers(count)` is `wait` applied to that
closure. -/
def waitForPeersM (count : Nat) (timeout : Nat) (closed : Bool)
    (events : List (Nat × PEvent)) : Except HandleError Unit :=
  waitModel timeout closed (waitForPeersCheck count) events

/-! ## Block Tree (spec §4.2)

Modelled from the spec: "the set of all known branches plus a distinguished
canonical chain = the branch with greatest cumulative work …, ties broken
by first-seen order (earlier-imported branch wins)".  A branch is the full
header chain from genesis (spec §3: "rooted either at genesis or at a fork
point shared with another branch" — represented here from genesis so that
cumulative work and heights are positional); the branch list is kept in
first-seen order, new branches appended last. -/

structure Tree where
  branches : List (List Header)
deriving DecidableEq, Repr

/-- Modelled from the spec: "cumulative work = sum of per-header work
implied by each header's difficulty target". -/
def chainWork (net : Network) (c : List Header) : Nat :=
  (c.map (fun h => net.work h.bits)).sum

/-- Modelled from the spec: canonical-chain selection — "greatest
cumulative work …, ties broken by first-seen order (earlier-imported
branch wins)".  Returns the first branch attaining the maximal work. -/
def selectBest (net : Network) : List (List Header) → Option (List Header)
  | [] => none
  | b :: bs =>
    match selectBest net bs with
    | none => some b
    | some c => if chainWork net c > chainWork net b then some c else some b

def canonicalChain (net : Network) (t : Tree) : List Header :=
  (selectBest net t.branches).getD []

/-- Modelled from the spec: "`height() -> Height`: current canonical
height" — the zero-based canonical-chain index of the tip. -/
def Tree.height (net : Network) (t : Tree) : Nat :=
  (canonicalChain net t).length - 1

/-- Modelled from the spec: "`get_tip() -> Header`: current canonical
tip". -/
def getTip (net : Network) (t : Tree) : Option Header :=
  (canonicalChain net t).getLast?

/-- All header hashes known to the tree, branch by branch. -/
def hashesOf (l : List (List Header)) : List Nat :=
  l.foldr (fun b acc => b.map headerHash ++ acc) []

def Tree.hashes (t : Tree) : List Nat := hashesOf t.branches

/-- A header is already known when its hash is among the tree's hashes
(spec §3: identity = hash). -/
def Tree.knows (t : Tree) (h : Header) : Bool := t.hashes.contains (headerHash h)

/-- The hash of the last header of a chain (0 for the empty chain). -/
def lastHash (c : List Header) : Nat :=
  match c.getLast? with
  | some h => headerHash h
  | none => 0

/-- The chain is internally linked after a first header `x`: each header's
previous-hash equals its predecessor's hash. -/
def linkedAfter (x : Header) : List Header → Bool
  | [] => true
  | y :: rest => (y.prevBlock == headerHash x) && linkedAfter y rest

/-- Modelled from the spec: "an ordered sequence of Headers, each
referencing the previous". -/
def chainLinked : List Header → Bool
  | [] => true
  | x :: rest => linkedAfter x rest

/-- Checkpoint validity of consecutive chain positions starting at height
`k` (spec §4.2 step 4). -/
def checkpointsOkFrom (net : Network) (k : Nat) : List Header → Bool
  | [] => true
  | h :: rest =>
    (match lookupCheckpoint net k with
     | some cp => headerHash h == cp
     | none => true) && checkpointsOkFrom net (k + 1) rest

def checkpointsOk (net : Network) (b : List Header) : Bool :=
  checkpointsOkFrom net 0 b

/-- The middle element of the sorted list (0 when empty). -/
def median (l : List Nat) : Nat :=
  let s := l.insertionSort (· ≤ ·)
  s.getD (s.length / 2) 0

/-- Modelled from the spec: "the median of the preceding N ancestors" —
the median of the timestamps of the last `medianWindow` ancestors. -/
def medianTimePast (net : Network) (chain : List Header) : Nat :=
  median ((chain.drop (chain.length - net.medianWindow)).map (·.time))

/-- Modelled from the spec, §4.2 validation step 2: "header hash must be
numerically ≤ target implied by its difficulty bits; bits must additionally
satisfy the network's difficulty-adjustment rule at that height (recomputed
from the ancestor window)". -/
def powValid (net : Network) (chain : List Header) (h : Header) : Bool :=
  (headerHash h ≤ net.decodeTarget h.bits) && (h.bits == net.requiredBits chain)

/-- Modelled from the spec, §4.2 validation step 3: "header timestamp must
exceed the median of the preceding N ancestors and must not exceed now …
by more than a bounded drift". -/
def timestampValid (net : Network) (now : Nat) (chain : List Header) (h : Header) : Bool :=
  (decide (medianTimePast net chain < h.time)) && (h.time ≤ now + net.maxDrift)

/-- Modelled from the spec, §4.2 validation step 4: "if the header's height
matches a known checkpoint height, its hash must equal the checkpoint
hash". -/
def checkpointValid (net : Network) (height : Nat) (h : Header) : Bool :=
  match lookupCheckpoint net height with
  | some cp => headerHash h == cp
  | none => true

/-- Modelled from the spec: per-header validation "in sequence order,
short-circuiting on first failure": proof-of-work (InvalidDifficulty),
timestamp sanity (InvalidTimestamp), checkpoint (InvalidCheckpoint), given
the header's ancestors `chain` (so its height is `chain.length`).  The
structural-link check (step 1, InvalidBlock) happens in `importOne` when
the parent is looked up. -/
inductive TreeError
  | invalidBlock
  | invalidDifficulty
  | invalidTimestamp
  | invalidCheckpoint
deriving DecidableEq, Repr

def checkHeader (net : Network) (now : Nat) (chain : List Header) (h : Header) :
    Option TreeError :=
  if !powValid net chain h then some .invalidDifficulty
  else if !timestampValid net now chain h then some .invalidTimestamp
  else if !checkpointValid net chain.length h then some .invalidCheckpoint
  else none

/-- The genesis-rooted prefix of `b` ending at the first header of `b`
whose hash is `p`, if any. -/
def branchPrefix? : List Header → Nat → Option (List Header)
  | [], _ => none
  | hd :: rest, p =>
    if headerHash hd == p then some [hd]
    else (branchPrefix? rest p).map (fun q => hd :: q)

/-- The ancestor chain of the header whose hash is `p`: the prefix of the
first branch containing `p`, cut at `p` (spec §9: headers are addressed by
hash; each holds a parent reference by hash). -/
def findPrefix (t : Tree) (p : Nat) : Option (List Header) :=
  t.branches.findSome? (fun b => branchPrefix? b p)

/-- Some branch has the header whose hash is `p` as its tip. -/
def hasTip (t : Tree) (p : Nat) : Bool :=
  t.branches.any (fun b => lastHash b == p)

/-- Modelled from the spec: import of a single header.  A header already
known leaves the tree unchanged ("chain unchanged (header already known
…)"); an unknown parent is an orphan rejection (InvalidBlock); a validated
header "extends either an existing branch or starts a new branch at a fork
point" — it extends in place the branch whose tip is its parent, or starts
a new branch (appended last: latest-seen) at the fork point. -/
def importOne (net : Network) (now : Nat) (t : Tree) (h : Header) :
    Except TreeError Tree :=
  if t.knows h then .ok t
  else
    match findPrefix t h.prevBlock with
    | none => .error .invalidBlock
    | some pfx =>
      match checkHeader net now pfx h with
      | some e => .error e
      | none =>
        if hasTip t h.prevBlock then
          .ok ⟨t.branches.map (fun b => if lastHash b == h.prevBlock then b ++ [h] else b)⟩
        else
          .ok ⟨t.branches ++ [pfx ++ [h]]⟩

/-- Modelled from the spec: headers are applied "per header, in sequence
order, short-circuiting on first failure"; a failure rejects "the offending
header and everything after it in that batch" while the already-validated
prefix stays applied. -/
def importGo (net : Network) (now : Nat) : Tree → List Header → Tree × Option TreeError
  | t, [] => (t, none)
  | t, h :: rest =>
    match importOne net now t h with
    | .error e => (t, some e)
    | .ok t' => importGo net now t' rest

/-- The length of the longest common prefix of two chains. -/
def commonPrefixLen : List Header → List Header → Nat
  | a :: as, b :: bs => if a = b then commonPrefixLen as bs + 1 else 0
  | _, _ => 0

/-- Modelled from the spec: the import outcome — "chain unchanged", "tip
advanced (new headers appended to canonical tip)", or "tip changed via
reorg …, carrying: new tip hash, new height, list of headers that were
reverted from the old canonical chain" (the old canonical headers above
the fork point, in descending height order). -/
inductive ImportOutcome
  | unchanged
  | tipAdvanced (hash : Nat) (height : Nat)
  | reorg (hash : Nat) (height : Nat) (reverted : List Header)
deriving DecidableEq, Repr

def outcomeOf (old new : List Header) : ImportOutcome :=
  if new = old then .unchanged
  else if commonPrefixLen old new = old.length then
    .tipAdvanced (lastHash new) (new.length - 1)
  else
    .reorg (lastHash new) (new.length - 1)
      ((old.drop (commonPrefixLen old new)).reverse)

/-- Modelled from the spec: "`import(headers …)`: the central operation" —
apply the batch header by header, then recompute the canonical chain and
report the outcome against the previous canonical chain. -/
def importHeaders (net : Network) (now : Nat) (t : Tree) (hs : List Header) :
    Tree × Except TreeError ImportOutcome :=
  let old := canonicalChain net t
  match importGo net now t hs with
  | (t', some e) => (t', .error e)
  | (t', none) => (t', .ok (outcomeOf old (canonicalChain net t')))

/-! ## The tree's representation invariant

The states the Block Tree reaches: a nonempty first-seen-ordered list of
distinct, genesis-rooted, internally linked, checkpoint-valid branches,
coherent in the sense that a hash determines the position and the
genesis-rooted prefix of its header (headers are immutable, identified by
hash, and each references an already-known parent — spec §3 and §9). -/

def coherent (t : Tree) : Prop :=
  ∀ b1 ∈ t.branches, ∀ b2 ∈ t.branches,
    ∀ i : Fin b1.length, ∀ j : Fin b2.length,
      headerHash (b1.get i) = headerHash (b2.get j) →
        b1.take (i.1 + 1) = b2.take (j.1 + 1)

instance (t : Tree) : Decidable (coherent t) := by
  unfold coherent; infer_instance

def WF (net : Network) (t : Tree) : Prop :=
  t.branches ≠ [] ∧
  (∀ b ∈ t.branches,
      b ≠ [] ∧ b.head? = some net.genesis ∧ chainLinked b = true ∧
        checkpointsOk net b = true) ∧
  coherent t ∧
  t.branches.Nodup

instance (net : Network) (t : Tree) : Decidable (WF net t) := by
  unfold WF; infer_instance

/-- The validity of a header sequence as an extension of the chain `c`:
each header links to the previous one (the first to `c`'s tip), none is
already seen, and each passes the per-header validation against its
ancestor chain.  `seen` accumulates the known hashes. -/
def goodExtension (net : Network) (now : Nat) :
    List Nat → List Header → List Header → Bool
  | _, _, [] => true
  | seen, c, h :: rest =>
    (h.prevBlock == lastHash c) && (decide (headerHash h ∉ seen)) &&
      (decide (checkHeader net now c h = none)) &&
      goodExtension net now (seen ++ [headerHash h]) (c ++ [h]) rest

/-! ## Lemmas about the startup model -/

theorem afterHeal_mem (w : RunWorld) :
    Step.createHeaderStore ∉ (afterHeal w).1 ∧ Step.checkStore ∉ (afterHeal w).1 ∧
      Step.healStore ∉ (afterHeal w).1 ∧ Step.healFilters ∉ (afterHeal w).1 ∧
      (afterHeal w).1.count Step.verifyFilters ≤ 1 := by
  unfold afterHeal
  rcases w.readHeight with c | u
  · simp [List.count_cons]
  rcases w.buildCache with c | u
  · simp [List.count_cons]
  rcases w.createFilters with (⟨⟩ | c) | u
  · rcases w.openFilters with c | u
    · simp [List.count_cons]
    rcases w.verifyFilters with c | u
    · simp [List.count_cons]
    rcases w.reactorRun with c | u <;> simp [List.count_cons]
  · simp [List.count_cons]
  · rcases w.verifyFilters with c | u
    · simp [List.count_cons]
    rcases w.reactorRun with c | u <;> simp [List.count_cons]

theorem afterHeal_verify (w : RunWorld) (h1 : w.readHeight = .ok ())
    (h2 : w.buildCache = .ok ())
    (h3 : w.createFilters = .ok () ∨
      (w.createFilters = .error .ioAlreadyExists ∧ w.openFilters = .ok ())) :
    (afterHeal w).1.count Step.verifyFilters = 1 ∧
      (∀ c, w.verifyFilters = .error c →
        (afterHeal w).2 = .err .verifyFilters c ∧ Step.runReactor ∉ (afterHeal w).1) := by
  unfold afterHeal
  rw [h1, h2]
  rcases h3 with h3 | ⟨h3, h4⟩
  · rw [h3]
    rcases w.verifyFilters with c | u
    · constructor
      · simp [List.count_cons]
      · intro c' hc'
        cases hc'
        exact ⟨rfl, by simp⟩
    · rcases w.reactorRun with c | u <;>
        exact ⟨by simp [List.count_cons], fun c' hc' => by cases hc'⟩
  · rw [h3, h4]
    rcases w.verifyFilters with c | u
    · constructor
      · simp [List.count_cons]
      · intro c' hc'
        cases hc'
        exact ⟨rfl, by simp⟩
    · rcases w.reactorRun with c | u <;>
        exact ⟨by simp [List.count_cons], fun c' hc' => by cases hc'⟩

theorem clientRun_split (w : RunWorld) (hopen : storeOpened w) :
    ∃ pre0, (clientRun w).1 = pre0 ++ (afterCheck w).1 ∧
      (clientRun w).2 = (afterCheck w).2 ∧ Step.buildTree ∉ pre0 ∧
      Step.healStore ∉ pre0 ∧ Step.healFilters ∉ pre0 ∧
      Step.verifyFilters ∉ pre0 ∧ Step.runReactor ∉ pre0 ∧
      pre0.count Step.createHeaderStore = 1 := by
  rcases hopen with hc | ⟨hc, ho⟩
  · refine ⟨[Step.createHeaderStore], ?_, ?_, ?_, ?_, ?_, ?_, ?_, ?_⟩
    · unfold clientRun; rw [hc]; try rfl
    · unfold clientRun; rw [hc]; try rfl
    · decide
    · decide
    · decide
    · decide
    · decide
    · decide
  · refine ⟨[Step.createHeaderStore, Step.openHeaderStore], ?_, ?_, ?_, ?_, ?_, ?_, ?_, ?_⟩
    · unfold clientRun; rw [hc, ho]; try rfl
    · unfold clientRun; rw [hc, ho]; try rfl
    · decide
    · decide
    · decide
    · decide
    · decide
    · decide

theorem afterCheck_split (w : RunWorld) :
    (∃ pre1, (afterCheck w).1 = pre1 ++ (afterHeal w).1 ∧
        (afterCheck w).2 = (afterHeal w).2 ∧ Step.buildTree ∉ pre1 ∧
        Step.healFilters ∉ pre1 ∧ Step.verifyFilters ∉ pre1 ∧
        Step.runReactor ∉ pre1 ∧ Step.createHeaderStore ∉ pre1) ∨
      (w.checkFails = true ∧ ∃ c, w.healHeaders = .error c ∧
        afterCheck w = ([.checkStore, .healStore], .err .healStore c)) := by
  unfold afterCheck
  by_cases hcf : w.checkFails
  · rw [hcf]
    rcases w.healHeaders with c | u
    · exact Or.inr ⟨rfl, c, rfl, by simp⟩
    · exact Or.inl ⟨[Step.checkStore, Step.healStore], by simp, by simp, by decide,
        by decide, by decide, by decide, by decide⟩
  · simp only [hcf, if_false, Bool.false_eq_true]
    exact Or.inl ⟨[Step.checkStore], by simp, by simp, by decide, by decide, by decide,
      by decide, by decide⟩

theorem afterCheck_no_create (w : RunWorld) : Step.createHeaderStore ∉ (afterCheck w).1 := by
  rcases afterCheck_split w with ⟨pre1, htr, _, _, _, _, _, hnc⟩ | ⟨_, c, _, hac⟩
  · rw [htr]
    simp only [List.mem_append]
    rintro (h | h)
    · exact hnc h
    · exact (afterHeal_mem w).1 h
  · rw [hac]
    simp

theorem clientRun_cases (w : RunWorld) :
    storeOpened w ∨ clientRun w = ([Step.createHeaderStore], RunResult.panicked) ∨
      ∃ c, clientRun w = ([Step.createHeaderStore, Step.openHeaderStore],
        RunResult.err Step.openHeaderStore c) := by
  rcases hc : w.createHeaders with (⟨⟩ | c) | u
  · rcases ho : w.openHeaders with c | u
    · refine Or.inr (Or.inr ⟨c, ?_⟩)
      unfold clientRun
      rw [hc, ho]
    · exact Or.inl (Or.inr ⟨hc, by rw [ho]⟩)
  · refine Or.inr (Or.inl ?_)
    unfold clientRun
    rw [hc]
  · exact Or.inl (Or.inl (by rw [hc]))

/-- **C6.**  At client startup (`Client::run`), when the header store's
`check()` reports corruption, `heal()` is invoked before the block tree
(`BlockCache::from`) is built; and when `heal()` itself fails, `run`
returns that error — the block tree is never built from an unhealed
store. -/
theorem c6_corruption_heals_before_tree (w : RunWorld) (hopen : storeOpened w)
    (hfail : w.checkFails = true) :
    (∃ pre rest, (clientRun w).1 = pre ++ Step.healStore :: rest ∧
      Step.buildTree ∉ pre) ∧
    ∀ c, w.healHeaders = Except.error c →
      (clientRun w).2 = RunResult.err Step.healStore c ∧
        Step.buildTree ∉ (clientRun w).1 := by
  obtain ⟨pre0, htr, hres, hbt, _, _, _, _, _⟩ := clientRun_split w hopen
  rcases hh : w.healHeaders with c | u
  · have hac : afterCheck w = ([Step.checkStore, Step.healStore],
        RunResult.err Step.healStore c) := by
      unfold afterCheck
      rw [hfail, hh]
      simp
    constructor
    · refine ⟨pre0 ++ [Step.checkStore], [], ?_, ?_⟩
      · rw [htr, hac]
        simp
      · simp [List.mem_append, hbt]
    · intro c' hc'
      cases hc'
      refine ⟨by rw [hres, hac], ?_⟩
      rw [htr, hac]
      simp [List.mem_append, hbt]
  · have hac1 : (afterCheck w).1 = Step.checkStore :: Step.healStore :: (afterHeal w).1 := by
      unfold afterCheck
      rw [hfail, hh]
      simp
    constructor
    · refine ⟨pre0 ++ [Step.checkStore], (afterHeal w).1, ?_, ?_⟩
      · rw [htr, hac1]
        simp
      · simp [List.mem_append, hbt]
    · intro c' hc'
      cases hc'

/-- **C6 witness**: a concrete corrupted-store world whose heal fails with
code 7; the run errors out at the heal stage and never builds the tree. -/
theorem c6_witness :
    (∃ pre rest,
      (clientRun ⟨.ok (), .ok (), true, .error 7, .ok (), .ok (), .ok (), .ok (),
        .ok (), .ok ()⟩).1 = pre ++ Step.healStore :: rest ∧ Step.buildTree ∉ pre) ∧
    ∀ c, (RunWorld.mk (.ok ()) (.ok ()) true (.error 7) (.ok ()) (.ok ()) (.ok ())
        (.ok ()) (.ok ()) (.ok ())).healHeaders = Except.error c →
      (clientRun ⟨.ok (), .ok (), true, .error 7, .ok (), .ok (), .ok (), .ok (),
        .ok (), .ok ()⟩).2 = RunResult.err Step.healStore c ∧
        Step.buildTree ∉ (clientRun ⟨.ok (), .ok (), true, .error 7, .ok (), .ok (),
          .ok (), .ok (), .ok (), .ok ()⟩).1 :=
  c6_corruption_heals_before_tree _ (Or.inl rfl) rfl

/-- **C7.**  Creating a header store at an occupied path fails with
AlreadyExists (store model); `Client::run` handles exactly the
AlreadyExists I/O error by opening the existing store (the creation is
attempted once, never an overwrite), while any other creation error aborts
the startup (the `panic!` arm at line 152). -/
theorem c7_store_create_already_exists :
    (∀ (fs : List Nat) (path : Nat) (g : List Nat), path ∈ fs →
      Store.create fs path g = .error "AlreadyExists") ∧
    (∀ w : RunWorld, w.createHeaders = .error .ioAlreadyExists →
      ∃ rest, (clientRun w).1 = [Step.createHeaderStore, Step.openHeaderStore] ++ rest) ∧
    (∀ w : RunWorld, (clientRun w).1.count Step.createHeaderStore = 1) ∧
    (∀ w : RunWorld, ∀ c, w.createHeaders = .error (.other c) →
      clientRun w = ([Step.createHeaderStore], RunResult.panicked)) := by
  refine ⟨?_, ?_, ?_, ?_⟩
  · intro fs path g hmem
    unfold Store.create
    rw [if_pos hmem]
  · intro w hc
    rcases ho : w.openHeaders with c | u
    · exact ⟨[], by unfold clientRun; rw [hc, ho]; rfl⟩
    · exact ⟨(afterCheck w).1, by unfold clientRun; rw [hc, ho]; rfl⟩
  · intro w
    have hnc := afterCheck_no_create w
    have hz : (afterCheck w).1.count Step.createHeaderStore = 0 :=
      List.count_eq_zero.mpr hnc
    rcases hc : w.createHeaders with (⟨⟩ | c) | u
    · rcases ho : w.openHeaders with c | u
      · unfold clientRun
        rw [hc, ho]
        rfl
      · have h4 : (clientRun w).1 =
            Step.createHeaderStore :: Step.openHeaderStore :: (afterCheck w).1 := by
          unfold clientRun
          rw [hc, ho]
        rw [h4]
        simp [List.count_cons, hz]
    · unfold clientRun
      rw [hc]
      rfl
    · have h4 : (clientRun w).1 = Step.createHeaderStore :: (afterCheck w).1 := by
        unfold clientRun
        rw [hc]
      rw [h4]
      simp [List.count_cons, hz]
  · intro w c hc
    unfold clientRun
    rw [hc]

/-- **C7 witness**: a three-path world exercising each conjunct at a
concrete input. -/
theorem c7_witness :
    Store.create [3, 5] 5 [0] = .error "AlreadyExists" ∧
    (∃ rest, (clientRun ⟨.error .ioAlreadyExists, .ok (), false, .ok (), .ok (), .ok (),
      .ok (), .ok (), .ok (), .ok ()⟩).1 =
        [Step.createHeaderStore, Step.openHeaderStore] ++ rest) ∧
    clientRun ⟨.error (.other 9), .ok (), false, .ok (), .ok (), .ok (), .ok (), .ok (),
      .ok (), .ok ()⟩ = ([Step.createHeaderStore], RunResult.panicked) :=
  ⟨c7_store_create_already_exists.1 [3, 5] 5 [0] (by decide),
   c7_store_create_already_exists.2.1 _ rfl,
   c7_store_create_already_exists.2.2.2 _ 9 rfl⟩

/-- **C8.**  At startup the filter cache's `verify()` is called exactly
once after the filter-header store is opened (line 188); a verification
failure is returned from `run` (the reactor never starts), and no healing
step is ever attempted on the filter store. -/
theorem c8_filter_verify_once :
    (∀ w : RunWorld, Step.healFilters ∉ (clientRun w).1) ∧
    (∀ w : RunWorld, (clientRun w).1.count Step.verifyFilters ≤ 1) ∧
    (∀ w : RunWorld, reachedFilters w → (clientRun w).1.count Step.verifyFilters = 1) ∧
    (∀ w : RunWorld, ∀ c, reachedFilters w → w.verifyFilters = Except.error c →
      (clientRun w).2 = RunResult.err Step.verifyFilters c ∧
        Step.runReactor ∉ (clientRun w).1) := by
  have hAC : ∀ w : RunWorld, Step.healFilters ∉ (afterCheck w).1 ∧
      (afterCheck w).1.count Step.verifyFilters ≤ 1 := by
    intro w
    rcases afterCheck_split w with ⟨pre1, htr, _, _, hhf, hvf, _, _⟩ | ⟨_, c, _, hac⟩
    · rw [htr]
      constructor
      · simp only [List.mem_append]
        rintro (h | h)
        · exact hhf h
        · exact (afterHeal_mem w).2.2.2.1 h
      · rw [List.count_append]
        have h1 : pre1.count Step.verifyFilters = 0 := List.count_eq_zero.mpr hvf
        have h2 := (afterHeal_mem w).2.2.2.2
        omega
    · rw [hac]
      exact ⟨by simp, by simp [List.count_cons]⟩
  refine ⟨?_, ?_, ?_, ?_⟩
  · intro w
    rcases clientRun_cases w with hop | hcr | ⟨c, hcr⟩
    · obtain ⟨pre0, htr, _, _, _, hhf, _, _, _⟩ := clientRun_split w hop
      rw [htr]
      simp only [List.mem_append]
      rintro (h | h)
      · exact hhf h
      · exact (hAC w).1 h
    · rw [hcr]
      decide
    · rw [hcr]
      simp
  · intro w
    rcases clientRun_cases w with hop | hcr | ⟨c, hcr⟩
    · obtain ⟨pre0, htr, _, _, _, _, hvf, _, _⟩ := clientRun_split w hop
      rw [htr, List.count_append]
      have h1 : pre0.count Step.verifyFilters = 0 := List.count_eq_zero.mpr hvf
      have h2 := (hAC w).2
      omega
    · rw [hcr]
      decide
    · rw [hcr]
      simp [List.count_cons]
  · intro w hr
    obtain ⟨hop, hheal, h1, h2, h3⟩ := hr
    obtain ⟨pre0, htr, _, _, _, _, hvf, _, _⟩ := clientRun_split w hop
    have hACtr : (afterCheck w).1.count Step.verifyFilters =
        (afterHeal w).1.count Step.verifyFilters := by
      rcases afterCheck_split w with ⟨pre1, htr1, _, _, _, hvf1, _, _⟩ | ⟨hcf, c, hh, _⟩
      · rw [htr1, List.count_append, List.count_eq_zero.mpr hvf1]
        omega
      · rw [hheal hcf] at hh
        cases hh
    rw [htr, List.count_append, List.count_eq_zero.mpr hvf, hACtr,
      (afterHeal_verify w h1 h2 h3).1]
  · intro w c hr hv
    obtain ⟨hop, hheal, h1, h2, h3⟩ := hr
    obtain ⟨pre0, htr, hres, _, _, _, _, hrr, _⟩ := clientRun_split w hop
    have hACd : (afterCheck w).1 = Step.checkStore :: Step.healStore :: (afterHeal w).1 ∨
        (afterCheck w).1 = Step.checkStore :: (afterHeal w).1 := by
      unfold afterCheck
      by_cases hcf : w.checkFails
      · rw [hcf, hheal hcf]
        exact Or.inl rfl
      · rw [if_neg hcf]
        exact Or.inr rfl
    have hACr : (afterCheck w).2 = (afterHeal w).2 := by
      unfold afterCheck
      by_cases hcf : w.checkFails
      · rw [hcf, hheal hcf]
        rfl
      · rw [if_neg hcf]
    obtain ⟨hv1, hv2⟩ := (afterHeal_verify w h1 h2 h3).2 c hv
    constructor
    · rw [hres, hACr, hv1]
    · rw [htr]
      simp only [List.mem_append]
      rintro (h | h)
      · exact hrr h
      · rcases hACd with hd | hd <;> rw [hd] at h <;> simp at h <;> exact hv2 h

/-- **C8 witness**: a concrete world whose filter verification fails with
code 3; the run errors at the verify stage and never starts the reactor. -/
theorem c8_witness :
    (clientRun ⟨.ok (), .ok (), false, .ok (), .ok (), .ok (), .ok (), .ok (),
      .error 3, .ok ()⟩).2 = RunResult.err Step.verifyFilters 3 ∧
    Step.runReactor ∉ (clientRun ⟨.ok (), .ok (), false, .ok (), .ok (), .ok (),
      .ok (), .ok (), .error 3, .ok ()⟩).1 :=
  c8_filter_verify_once.2.2.2 _ 3 (by decide) rfl

/-! ## Store heal/check (C4) -/

theorem heal_aligned (v : Nat) (s : StoreFile) :
    (Store.heal v s).data.length = s.data.length - s.data.length % v ∧
      (Store.heal v s).data.length % v = 0 := by
  unfold Store.heal
  have hle : s.data.length - s.data.length % v ≤ s.data.length := Nat.sub_le _ _
  have hlen : (s.data.take (s.data.length - s.data.length % v)).length =
      s.data.length - s.data.length % v := by
    rw [List.length_take]
    omega
  refine ⟨hlen, ?_⟩
  rw [hlen]
  have hdm := Nat.div_add_mod s.data.length v
  have hsub : s.data.length - s.data.length % v = v * (s.data.length / v) :=
    Nat.sub_eq_of_eq_add hdm.symm
  rw [hsub]
  exact Nat.mul_mod_right v _

/-- **C4.**  For every store state, `heal()` leaves a store that `check()`
accepts, whose height does not exceed the height on disk, and whose
contents are a prefix of the old contents (nothing fabricated, only
discarded); `heal()` is idempotent, a no-op on a healthy store; and a
store corrupted by a crash mid-record-write (`good ++ partial`) heals back
to exactly `good`, so the healed height is at most the height before the
corruption occurred. -/
theorem c4_heal_recovers (v : Nat) (s good : StoreFile) (extra : List Nat)
    (hgood : (Store.check v good).isOk = true) (hshort : extra.length < v) :
    (Store.check v (Store.heal v s)).isOk = true ∧
    Store.height v (Store.heal v s) ≤ Store.height v s ∧
    List.IsPrefix (Store.heal v s).data s.data ∧
    Store.heal v (Store.heal v s) = Store.heal v s ∧
    Store.heal v good = good ∧
    Store.heal v ⟨good.data ++ extra⟩ = good ∧
    Store.height v (Store.heal v ⟨good.data ++ extra⟩) ≤
      Store.height v ⟨good.data ++ extra⟩ := by
  have hmod : ∀ t : StoreFile, t.data.length % v = 0 →
      (Store.check v t).isOk = true := by
    intro t ht
    unfold Store.check
    rw [if_pos ht]
    rfl
  have hgoodmod : good.data.length % v = 0 := by
    by_contra hne
    unfold Store.check at hgood
    rw [if_neg hne] at hgood
    exact Bool.noConfusion hgood
  have hvpos : 0 < v := lt_of_le_of_lt (Nat.zero_le _) hshort
  have hheal_noop : ∀ t : StoreFile, t.data.length % v = 0 → Store.heal v t = t := by
    intro t ht
    unfold Store.heal
    cases t with
    | mk d =>
      simp only [StoreFile.mk.injEq]
      rw [ht, Nat.sub_zero, List.take_length]
  refine ⟨hmod _ (heal_aligned v s).2, ?_, ?_, ?_, hheal_noop good hgoodmod, ?_, ?_⟩
  · unfold Store.height
    have hl := (heal_aligned v s).1
    rw [hl]
    exact Nat.sub_le_sub_right (Nat.div_le_div_right (Nat.sub_le _ _)) 1
  · exact List.take_prefix _ _
  · exact hheal_noop _ (heal_aligned v s).2
  · have hlen : (good.data ++ extra).length = good.data.length + extra.length := by
      rw [List.length_append]
    have hm : (good.data ++ extra).length % v = extra.length := by
      rw [hlen, Nat.add_mod, hgoodmod, Nat.zero_add, Nat.mod_eq_of_lt hshort,
        Nat.mod_eq_of_lt hshort]
    unfold Store.heal
    cases good with
    | mk d =>
      simp only [StoreFile.mk.injEq]
      simp only at hm hlen
      rw [hm, hlen]
      have : d.length + extra.length - extra.length = d.length := by omega
      rw [this]
      exact List.take_left d extra
  · unfold Store.height
    exact Nat.sub_le_sub_right (Nat.div_le_div_right (by
      rw [(heal_aligned v _).1]
      exact Nat.sub_le _ _)) 1

/-- **C4 witness**: record width 4, a healthy two-record store, a corrupted
copy with a 3-byte partial trailing record, and an arbitrary state; the
hypotheses are discharged concretely. -/
theorem c4_witness :
    (Store.check 4 (Store.heal 4 ⟨[1, 2, 3, 4, 5]⟩)).isOk = true ∧
    Store.height 4 (Store.heal 4 ⟨[1, 2, 3, 4, 5]⟩) ≤ Store.height 4 ⟨[1, 2, 3, 4, 5]⟩ ∧
    List.IsPrefix (Store.heal 4 ⟨[1, 2, 3, 4, 5]⟩).data [1, 2, 3, 4, 5] ∧
    Store.heal 4 (Store.heal 4 ⟨[1, 2, 3, 4, 5]⟩) = Store.heal 4 ⟨[1, 2, 3, 4, 5]⟩ ∧
    Store.heal 4 ⟨[1, 2, 3, 4, 1, 2, 3, 4]⟩ = ⟨[1, 2, 3, 4, 1, 2, 3, 4]⟩ ∧
    Store.heal 4 ⟨[1, 2, 3, 4, 1, 2, 3, 4] ++ [9, 9, 9]⟩ = ⟨[1, 2, 3, 4, 1, 2, 3, 4]⟩ ∧
    Store.height 4 (Store.heal 4 ⟨[1, 2, 3, 4, 1, 2, 3, 4] ++ [9, 9, 9]⟩) ≤
      Store.height 4 ⟨[1, 2, 3, 4, 1, 2, 3, 4] ++ [9, 9, 9]⟩ :=
  c4_heal_recovers 4 ⟨[1, 2, 3, 4, 5]⟩ ⟨[1, 2, 3, 4, 1, 2, 3, 4]⟩ [9, 9, 9]
    (by decide) (by decide)

/-! ## Handle operations (C9, C10) -/

/-- **C9.**  The handle operations `get_tip`, `query` and `import_headers`
block on a dedicated response channel's `recv()` and never produce
`handle::Error::Timeout`, for any outcome of the channel operations; the
timeout bounds only the `wait`-based operations — `wait` itself does time
out (here: on a silent open channel). -/
theorem c9_no_timeout_on_recv_ops :
    (∀ w : ChanWorld Header, getTipM w ≠ .error .timeout) ∧
    (∀ w : ChanWorld (Option Nat), queryM w ≠ .error .timeout) ∧
    (∀ w : ChanWorld ImportResponse, importHeadersM w ≠ .error .timeout) ∧
    (∀ timeout : Nat, waitModel (T := Unit) timeout false (fun _ => none) [] =
      .error .timeout) := by
  have hcmd : ∀ (α : Type) (w : ChanWorld α), commandM w ≠ .error .timeout := by
    intro α w
    unfold commandM
    rcases w.sendResult with c | u
    · unfold ofChannelErr
      simp
    · rcases w.wakeResult with c | u <;> simp
  refine ⟨?_, ?_, ?_, ?_⟩
  · intro w
    unfold getTipM
    rcases hc : commandM w with c | u
    · have := hcmd _ w
      rw [hc] at this
      simpa using fun he => this (by rw [he])
    · rcases w.recvResult with c | u
      · unfold ofChannelErr
        simp
      · simp
  · intro w
    unfold queryM
    rcases hc : commandM w with c | u
    · have := hcmd _ w
      rw [hc] at this
      simpa using fun he => this (by rw [he])
    · rcases w.recvResult with c | u
      · unfold ofChannelErr
        simp
      · simp
  · intro w
    unfold importHeadersM
    rcases hc : commandM w with c | u
    · have := hcmd _ w
      rw [hc] at this
      simpa using fun he => this (by rw [he])
    · rcases w.recvResult with c | u
      · unfold ofChannelErr
        simp
      · simp
  · intro timeout
    rfl

/-- **C10.**  `wait_for_peers(count)` can never succeed for `count ≥ 2`:
the closure's `connected` set is re-created empty on every event, so its
size after one insert is 1, and the call always ends in `Error::Timeout`
or `Error::Disconnected` whatever events arrive within whatever budget. -/
theorem c10_wait_for_peers_starves (count : Nat) (hc : 2 ≤ count) (timeout : Nat)
    (closed : Bool) (events : List (Nat × PEvent)) :
    waitForPeersM count timeout closed events = .error .timeout ∨
      waitForPeersM count timeout closed events = .error .disconnected := by
  have hnone : ∀ e : PEvent, waitForPeersCheck count e = none := by
    intro e
    cases e with
    | connected a =>
      unfold waitForPeersCheck
      simp only [List.mem_nil_iff, if_false]
      have : ¬([a].length = count) := by
        simp only [List.length_singleton]
        omega
      rw [if_neg this]
    | other => rfl
  unfold waitForPeersM
  induction events with
  | nil =>
    unfold waitModel
    cases closed
    · exact Or.inl rfl
    · exact Or.inr rfl
  | cons p rest ih =>
    obtain ⟨t, e⟩ := p
    unfold waitModel
    by_cases ht : timeout < t
    · rw [if_pos ht]
      exact Or.inl rfl
    · rw [if_neg ht, hnone e]
      exact ih

/-- **C10 witness**: two peers connect in time, yet `wait_for_peers 2`
still fails. -/
theorem c10_witness :
    waitForPeersM 2 1000 false [(1, PEvent.connected 7), (2, PEvent.connected 8)] =
        .error .timeout ∨
      waitForPeersM 2 1000 false [(1, PEvent.connected 7), (2, PEvent.connected 8)] =
        .error .disconnected :=
  c10_wait_for_peers_starves 2 (by decide) 1000 false
    [(1, PEvent.connected 7), (2, PEvent.connected 8)]

/-! ## Basic lemmas about the tree model -/

theorem selectBest_mem (net : Network) :
    ∀ (l : List (List Header)) (c : List Header), selectBest net l = some c → c ∈ l := by
  intro l
  induction l with
  | nil => intro c h; cases h
  | cons b bs ih =>
    intro c h
    unfold selectBest at h
    split at h
    · cases h
      exact List.mem_cons_self _ _
    · rename_i d heq
      split at h
      · cases h
        exact List.mem_cons_of_mem _ (ih _ heq)
      · cases h
        exact List.mem_cons_self _ _

theorem selectBest_cons_ne_none (net : Network) (b : List Header)
    (bs : List (List Header)) : selectBest net (b :: bs) ≠ none := by
  intro h
  unfold selectBest at h
  split at h
  · cases h
  · split at h <;> cases h

theorem selectBest_le (net : Network) :
    ∀ (l : List (List Header)) (c : List Header), selectBest net l = some c →
      ∀ x ∈ l, chainWork net x ≤ chainWork net c := by
  intro l
  induction l with
  | nil => intro c _ x hx; cases hx
  | cons b bs ih =>
    intro c h x hx
    unfold selectBest at h
    split at h
    · rename_i heq
      cases h
      rcases List.mem_cons.mp hx with rfl | hx'
      · exact le_refl _
      · cases bs with
        | nil => cases hx'
        | cons b' bs' => exact absurd heq (selectBest_cons_ne_none net b' bs')
    · rename_i d heq
      split at h <;> rename_i hw <;> cases h
      · rcases List.mem_cons.mp hx with rfl | hx'
        · exact le_of_lt hw
        · exact ih _ heq x hx'
      · rcases List.mem_cons.mp hx with rfl | hx'
        · exact le_refl _
        · have := ih _ heq x hx'
          omega

theorem hashesOf_cons (b : List Header) (bs : List (List Header)) :
    hashesOf (b :: bs) = b.map headerHash ++ hashesOf bs := rfl

theorem mem_hashesOf {x : Nat} :
    ∀ {l : List (List Header)}, x ∈ hashesOf l ↔
      ∃ b, b ∈ l ∧ ∃ hd, hd ∈ b ∧ headerHash hd = x := by
  intro l
  induction l with
  | nil => simp [hashesOf]
  | cons b bs ih =>
    rw [hashesOf_cons]
    simp only [List.mem_append, List.mem_map, List.mem_cons, ih]
    constructor
    · rintro (⟨hd, hm, rfl⟩ | ⟨b', hb', hd, hm, rfl⟩)
      · exact ⟨b, Or.inl rfl, hd, hm, rfl⟩
      · exact ⟨b', Or.inr hb', hd, hm, rfl⟩
    · rintro ⟨b', hb' | hb', hd, hm, rfl⟩
      · subst hb'
        exact Or.inl ⟨hd, hm, rfl⟩
      · exact Or.inr ⟨b', hb', hd, hm, rfl⟩

theorem knows_iff (t : Tree) (h : Header) :
    t.knows h = true ↔ headerHash h ∈ t.hashes := by
  unfold Tree.knows List.contains
  exact List.elem_iff

theorem canonicalChain_mem (net : Network) (t : Tree) :
    canonicalChain net t ∈ t.branches ∨ canonicalChain net t = [] := by
  unfold canonicalChain
  cases hsel : selectBest net t.branches with
  | none => exact Or.inr rfl
  | some c => exact Or.inl (selectBest_mem net _ c hsel)

theorem importOne_known (net : Network) (now : Nat) (t : Tree) (h : Header)
    (hk : t.knows h = true) : importOne net now t h = .ok t := by
  unfold importOne
  rw [hk]
  simp

theorem importGo_known (net : Network) (now : Nat) :
    ∀ (hs : List Header) (t : Tree), (∀ h ∈ hs, t.knows h = true) →
      importGo net now t hs = (t, none) := by
  intro hs
  induction hs with
  | nil => intro t _; rfl
  | cons h rest ih =>
    intro t hall
    have h1 : importOne net now t h = .ok t :=
      importOne_known net now t h (hall h (List.mem_cons_self _ _))
    simp only [importGo, h1]
    exact ih t fun h' hm => hall h' (List.mem_cons_of_mem _ hm)

theorem outcomeOf_self (c : List Header) : outcomeOf c c = .unchanged := by
  unfold outcomeOf
  rw [if_pos rfl]

/-- **C5.**  Re-importing a header sequence that is already part of the
canonical chain is idempotent: every header is already known, so the tree
is untouched and the outcome is the "unchanged" variant — height and tip
after the import equal those before. -/
theorem c5_reimport_unchanged (net : Network) (now : Nat) (t : Tree) (hs : List Header)
    (hall : ∀ h ∈ hs, h ∈ canonicalChain net t) :
    importHeaders net now t hs = (t, .ok ImportOutcome.unchanged) := by
  have hknow : ∀ h ∈ hs, t.knows h = true := by
    intro h hm
    have hc := hall h hm
    have hcb : canonicalChain net t ∈ t.branches := by
      rcases canonicalChain_mem net t with hb | he
      · exact hb
      · rw [he] at hc
        cases hc
    exact (knows_iff t h).mpr (mem_hashesOf.mpr ⟨_, hcb, h, hc, rfl⟩)
  unfold importHeaders
  rw [importGo_known net now hs t hknow]
  show (t, Except.ok (outcomeOf (canonicalChain net t) (canonicalChain net t))) = _
  rw [outcomeOf_self]

/-! ## A concrete toy network and chains, used by witnesses and
counterexamples -/

def wG : Header := ⟨0, 0, 0, 0, 1, 0⟩

def wNet : Network :=
  { genesis := wG
    checkpoints := []
    decodeTarget := fun _ => 10 ^ 1000
    requiredBits := fun _ => 1
    work := fun b => b + 1
    medianWindow := 11
    maxDrift := 100 }

def wA1 : Header := ⟨0, headerHash wG, 0, 1, 1, 0⟩
def wA2 : Header := ⟨0, headerHash wA1, 0, 2, 1, 0⟩
def wB1 : Header := ⟨0, headerHash wG, 1, 1, 1, 1⟩
def wB2 : Header := ⟨0, headerHash wB1, 1, 2, 1, 1⟩
def wB3 : Header := ⟨0, headerHash wB2, 1, 3, 1, 1⟩

/-- The tree holding the single canonical chain `wG, wA1, wA2`. -/
def wT2 : Tree := ⟨[[wG, wA1, wA2]]⟩

/-- **C5 witness**: re-importing the already-canonical `wA1, wA2` changes
nothing. -/
theorem c5_witness :
    importHeaders wNet 1000 wT2 [wA1, wA2] = (wT2, .ok ImportOutcome.unchanged) :=
  c5_reimport_unchanged wNet 1000 wT2 [wA1, wA2] (by decide)

/-! ## Checkpoint rejection (C3) -/

/-- The validation order the spec fixes (§4.2: "in sequence order,
short-circuiting on first failure") checks proof-of-work before the
checkpoint, so a header that fails both is reported as InvalidDifficulty,
not InvalidCheckpoint — but it is rejected either way. -/
theorem c3_checkpoint_always_rejected (net : Network) (now : Nat) (t : Tree) (h : Header)
    (hk : t.knows h = false) (pfx : List Header)
    (hfind : findPrefix t h.prevBlock = some pfx)
    (hcp : checkpointValid net pfx.length h = false) :
    ∃ e, importHeaders net now t [h] = (t, .error e) ∧
      (powValid net pfx h = true → timestampValid net now pfx h = true →
        e = TreeError.invalidCheckpoint) := by
  have hcheck : ∃ e, checkHeader net now pfx h = some e ∧
      (powValid net pfx h = true → timestampValid net now pfx h = true →
        e = TreeError.invalidCheckpoint) := by
    unfold checkHeader
    cases hpow : powValid net pfx h with
    | false => exact ⟨.invalidDifficulty, by simp, fun hp _ => Bool.noConfusion hp⟩
    | true =>
      cases hts : timestampValid net now pfx h with
      | false => exact ⟨.invalidTimestamp, by simp, fun _ ht => Bool.noConfusion ht⟩
      | true => exact ⟨.invalidCheckpoint, by simp [hcp], fun _ _ => rfl⟩
  obtain ⟨e, he, himp⟩ := hcheck
  refine ⟨e, ?_, himp⟩
  have h1 : importOne net now t h = .error e := by
    unfold importOne
    simp [hk, hfind, he]
  unfold importHeaders
  simp only [importGo, h1]

/-- **C3 witness** (for the amended claim): a proof-of-work-valid header at
checkpointed height 1 with the wrong hash is rejected as
InvalidCheckpoint. -/
theorem c3_witness :
    ∃ e, importHeaders
        { wNet with checkpoints := [(1, headerHash wA1)] } 1000 ⟨[[wG]]⟩ [wB1] =
        (⟨[[wG]]⟩, .error e) ∧
      (powValid { wNet with checkpoints := [(1, headerHash wA1)] } [wG] wB1 = true →
        timestampValid { wNet with checkpoints := [(1, headerHash wA1)] } 1000 [wG] wB1 = true →
        e = TreeError.invalidCheckpoint) :=
  c3_checkpoint_always_rejected _ 1000 ⟨[[wG]]⟩ wB1 (by decide) [wG] (by decide) (by decide)

/-- **C3 counterexample** to the claim as stated: a header at checkpointed
height 1 whose hash differs from the checkpoint *and* which fails
proof-of-work validation (its bits are not the required bits) is rejected
as InvalidDifficulty — the InvalidCheckpoint error is not produced
"regardless of proof-of-work validity", because validation short-circuits
in the spec's order with proof-of-work first. -/
theorem c3_counterexample :
    checkpointValid { wNet with checkpoints := [(1, headerHash wA1)] } 1
        ⟨0, headerHash wG, 1, 1, 2, 1⟩ = false ∧
    powValid { wNet with checkpoints := [(1, headerHash wA1)] } [wG]
        ⟨0, headerHash wG, 1, 1, 2, 1⟩ = false ∧
    importHeaders { wNet with checkpoints := [(1, headerHash wA1)] } 1000 ⟨[[wG]]⟩
        [⟨0, headerHash wG, 1, 1, 2, 1⟩] =
      (⟨[[wG]]⟩, .error TreeError.invalidDifficulty) ∧
    TreeError.invalidDifficulty ≠ TreeError.invalidCheckpoint := by
  refine ⟨by decide, by decide, ?_, by decide⟩
  decide

/-! ## Chain-level lemmas for the import proofs -/

theorem checkHeader_none_iff (net : Network) (now : Nat) (chain : List Header)
    (h : Header) : checkHeader net now chain h = none ↔
      powValid net chain h = true ∧ timestampValid net now chain h = true ∧
        checkpointValid net chain.length h = true := by
  unfold checkHeader
  cases powValid net chain h <;> cases timestampValid net now chain h <;>
    cases checkpointValid net chain.length h <;> simp

theorem lastHash_concat (l : List Header) (h : Header) :
    lastHash (l ++ [h]) = headerHash h := by
  unfold lastHash
  rw [List.getLast?_concat]

theorem lastHash_get (l : List Header) (hlt : l.length - 1 < l.length) :
    lastHash l = headerHash (l.get ⟨l.length - 1, hlt⟩) := by
  unfold lastHash
  rw [List.getLast?_eq_get?, List.get?_eq_get hlt]

theorem lastHash_take (b : List Header) (j : Nat) (hj : j < b.length) :
    lastHash (b.take (j + 1)) = headerHash (b.get ⟨j, hj⟩) := by
  have hlen : (b.take (j + 1)).length = j + 1 := by
    rw [List.length_take]
    omega
  have hlt : (b.take (j + 1)).length - 1 < (b.take (j + 1)).length := by omega
  rw [lastHash_get _ hlt]
  congr 1
  have h1 : (b.take (j + 1)).get ⟨(b.take (j + 1)).length - 1, hlt⟩ = b.get ⟨j, hj⟩ := by
    have h2 : (b.take (j + 1)).get? ((b.take (j + 1)).length - 1) = b.get? j := by
      rw [hlen]
      simp only [Nat.add_sub_cancel]
      exact List.get?_take (Nat.lt_succ_self j)
    rw [List.get?_eq_get hlt, List.get?_eq_get hj] at h2
    exact Option.some.inj h2
  rw [h1]

theorem linkedAfter_snoc (l : List Header) :
    ∀ (x : Header) (h : Header), linkedAfter x (l ++ [h]) =
      (linkedAfter x l && (h.prevBlock == lastHash (x :: l))) := by
  induction l with
  | nil =>
    intro x h
    unfold linkedAfter lastHash
    simp
    intro _
    rfl
  | cons y rest ih =>
    intro x h
    simp only [List.cons_append, linkedAfter, List.append_eq, ih y h]
    unfold lastHash
    rw [List.getLast?_cons_cons, Bool.and_assoc]

theorem chainLinked_snoc (b : List Header) (h : Header) (hb : chainLinked b = true)
    (hprev : h.prevBlock = lastHash b) (hne : b ≠ []) :
    chainLinked (b ++ [h]) = true := by
  cases b with
  | nil => exact absurd rfl hne
  | cons y rest =>
    rw [List.cons_append]
    show linkedAfter y (rest ++ [h]) = true
    have hb' : linkedAfter y rest = true := hb
    rw [linkedAfter_snoc rest y h, hb', Bool.true_and]
    exact beq_iff_eq.mpr hprev

theorem linkedAfter_take :
    ∀ (l : List Header) (x : Header) (n : Nat), linkedAfter x l = true →
      linkedAfter x (l.take n) = true := by
  intro l
  induction l with
  | nil => intro x n _; rw [List.take_nil]; rfl
  | cons y rest ih =>
    intro x n hl
    cases n with
    | zero => rfl
    | succ n =>
      rw [List.take_succ_cons]
      show (y.prevBlock == headerHash x && linkedAfter y (rest.take n)) = true
      have hl' : (y.prevBlock == headerHash x && linkedAfter y rest) = true := hl
      rw [Bool.and_eq_true] at hl'
      rcases hl' with ⟨h1, h2⟩
      rw [h1, Bool.true_and]
      exact ih y n h2

theorem chainLinked_take (b : List Header) (n : Nat) (hb : chainLinked b = true) :
    chainLinked (b.take n) = true := by
  cases b with
  | nil => rw [List.take_nil]; rfl
  | cons y rest =>
    cases n with
    | zero => rfl
    | succ n =>
      rw [List.take_succ_cons]
      exact linkedAfter_take rest y n hb

theorem checkpointsOkFrom_snoc (net : Network) :
    ∀ (l : List Header) (k : Nat) (h : Header),
      checkpointsOkFrom net k (l ++ [h]) =
        (checkpointsOkFrom net k l && checkpointValid net (k + l.length) h) := by
  intro l
  induction l with
  | nil =>
    intro k h
    rw [List.nil_append]
    unfold checkpointsOkFrom checkpointValid
    simp
    intro _
    rfl
  | cons y rest ih =>
    intro k h
    rw [List.cons_append]
    unfold checkpointsOkFrom
    rw [ih (k + 1) h, List.length_cons]
    have harith : k + 1 + rest.length = k + (rest.length + 1) := by omega
    rw [harith, Bool.and_assoc]

theorem checkpointsOkFrom_take (net : Network) :
    ∀ (l : List Header) (k n : Nat), checkpointsOkFrom net k l = true →
      checkpointsOkFrom net k (l.take n) = true := by
  intro l
  induction l with
  | nil => intro k n _; rw [List.take_nil]; rfl
  | cons y rest ih =>
    intro k n hl
    cases n with
    | zero => rfl
    | succ n =>
      rw [List.take_succ_cons]
      unfold checkpointsOkFrom at hl ⊢
      rw [Bool.and_eq_true] at hl
      rcases hl with ⟨h1, h2⟩
      rw [h1, Bool.true_and]
      exact ih (k + 1) n h2

theorem chainWork_append (net : Network) (a b : List Header) :
    chainWork net (a ++ b) = chainWork net a + chainWork net b := by
  unfold chainWork
  rw [List.map_append, List.sum_append]

theorem chainWork_le_append (net : Network) (a b : List Header) :
    chainWork net a ≤ chainWork net (a ++ b) := by
  rw [chainWork_append]
  exact Nat.le_add_right _ _

theorem head?_take_succ (b : List Header) (n : Nat) :
    (b.take (n + 1)).head? = b.head? := by
  cases b with
  | nil => rw [List.take_nil]
  | cons y rest => rw [List.take_succ_cons]; rfl

theorem get_take' (b : List Header) (n k : Nat) (hkn : k < n) (hk : k < b.length)
    (hk2 : k < (b.take n).length) : (b.take n).get ⟨k, hk2⟩ = b.get ⟨k, hk⟩ := by
  have h := List.get?_take (l := b) hkn
  rw [List.get?_eq_get hk2, List.get?_eq_get hk] at h
  exact Option.some.inj h

theorem take_take_succ (b : List Header) (j k : Nat) (hkj : k ≤ j) :
    (b.take (j + 1)).take (k + 1) = b.take (k + 1) := by
  rw [List.take_take]
  congr 1
  omega

theorem get_concat_self (q : List Header) (h : Header)
    (hq : q.length < (q ++ [h]).length) : (q ++ [h]).get ⟨q.length, hq⟩ = h := by
  rw [List.get_append_right' (le_refl _)]
  simp

theorem take_concat_self (q : List Header) (h : Header) :
    (q ++ [h]).take (q.length + 1) = q ++ [h] := by
  have : (q ++ [h]).length = q.length + 1 := by simp
  rw [← this, List.take_length]

theorem get_append_left' (q : List Header) (l2 : List Header) (k : Nat)
    (hk : k < q.length) (hk2 : k < (q ++ l2).length) :
    (q ++ l2).get ⟨k, hk2⟩ = q.get ⟨k, hk⟩ :=
  List.get_append_left q l2 hk

theorem take_append_left' (q : List Header) (l2 : List Header) (n : Nat)
    (hn : n ≤ q.length) : (q ++ l2).take n = q.take n :=
  List.take_eq_left_iff.mpr (Or.inr hn)

/-! ## Parent lookup under the tree invariant -/

theorem branchPrefix?_eq_none_iff (p : Nat) :
    ∀ (b : List Header), branchPrefix? b p = none ↔ ∀ hd ∈ b, headerHash hd ≠ p := by
  intro b
  induction b with
  | nil => simp [branchPrefix?]
  | cons hd rest ih =>
    unfold branchPrefix?
    by_cases hh : headerHash hd = p
    · rw [if_pos (beq_iff_eq.mpr hh)]
      constructor
      · intro hcontra
        cases hcontra
      · intro hall
        exact absurd hh (hall hd (List.mem_cons_self _ _))
    · rw [if_neg (by simpa using hh)]
      constructor
      · intro hm hd' hmem
        rcases List.mem_cons.mp hmem with rfl | hmem'
        · exact hh
        · exact ih.mp (by cases hbp : branchPrefix? rest p with
            | none => rfl
            | some q => rw [hbp] at hm; cases hm) hd' hmem'
      · intro hall
        have : branchPrefix? rest p = none :=
          ih.mpr fun hd' hm => hall hd' (List.mem_cons_of_mem _ hm)
        rw [this]
        rfl

theorem branchPrefix?_some_spec (p : Nat) :
    ∀ (b : List Header) (q : List Header), branchPrefix? b p = some q →
      ∃ j, ∃ hj : j < b.length, q = b.take (j + 1) ∧
        headerHash (b.get ⟨j, hj⟩) = p := by
  intro b
  induction b with
  | nil => intro q h; cases h
  | cons hd rest ih =>
    intro q h
    unfold branchPrefix? at h
    by_cases hh : headerHash hd = p
    · rw [if_pos (beq_iff_eq.mpr hh)] at h
      cases h
      exact ⟨0, by simp, by simp, hh⟩
    · rw [if_neg (by simpa using hh)] at h
      cases hbp : branchPrefix? rest p with
      | none => rw [hbp] at h; cases h
      | some q' =>
        rw [hbp] at h
        cases h
        obtain ⟨j, hj, hq, hhash⟩ := ih q' hbp
        refine ⟨j + 1, by simpa using Nat.succ_lt_succ hj, ?_, ?_⟩
        · rw [List.take_succ_cons, hq]
        · simpa using hhash

/-- Coherence restated with `Nat` indices. -/
theorem coh_take (t : Tree) (hcoh : coherent t) (b1 : List Header)
    (hb1 : b1 ∈ t.branches) (b2 : List Header) (hb2 : b2 ∈ t.branches)
    (i j : Nat) (hi : i < b1.length) (hj : j < b2.length)
    (hh : headerHash (b1.get ⟨i, hi⟩) = headerHash (b2.get ⟨j, hj⟩)) :
    b1.take (i + 1) = b2.take (j + 1) :=
  hcoh b1 hb1 b2 hb2 ⟨i, hi⟩ ⟨j, hj⟩ hh

theorem coh_idx (t : Tree) (hcoh : coherent t) (b1 : List Header)
    (hb1 : b1 ∈ t.branches) (b2 : List Header) (hb2 : b2 ∈ t.branches)
    (i j : Nat) (hi : i < b1.length) (hj : j < b2.length)
    (hh : headerHash (b1.get ⟨i, hi⟩) = headerHash (b2.get ⟨j, hj⟩)) : i = j := by
  have h := coh_take t hcoh b1 hb1 b2 hb2 i j hi hj hh
  have h1 : (b1.take (i + 1)).length = i + 1 := by rw [List.length_take]; omega
  have h2 : (b2.take (j + 1)).length = j + 1 := by rw [List.length_take]; omega
  rw [h, h2] at h1
  omega

theorem findSome?_unique {α β : Type} [DecidableEq β] (f : α → Option β) (g : β) :
    ∀ (l : List α), (∃ b ∈ l, f b ≠ none) → (∀ b ∈ l, ∀ q, f b = some q → q = g) →
      l.findSome? f = some g := by
  intro l
  induction l with
  | nil => rintro ⟨b, hb, _⟩ _; cases hb
  | cons a rest ih =>
    rintro ⟨b, hb, hfb⟩ huniq
    rw [List.findSome?_cons]
    cases hfa : f a with
    | some q =>
      rw [huniq a (List.mem_cons_self _ _) q hfa]
    | none =>
      apply ih
      · rcases List.mem_cons.mp hb with rfl | hb'
        · exact absurd hfa hfb
        · exact ⟨b, hb', hfb⟩
      · exact fun b' hb' q hq => huniq b' (List.mem_cons_of_mem _ hb') q hq

/-- Under the invariant, looking up a parent hash that occurs at position
`j` of a branch `b` yields exactly the prefix of `b` up to `j` — whatever
branch the search happens to find it in first. -/
theorem findPrefix_eq (net : Network) (t : Tree) (hwf : WF net t)
    (p : Nat) (b : List Header) (hb : b ∈ t.branches) (j : Nat) (hj : j < b.length)
    (hhash : headerHash (b.get ⟨j, hj⟩) = p) :
    findPrefix t p = some (b.take (j + 1)) := by
  obtain ⟨-, -, hcoh, -⟩ := hwf
  unfold findPrefix
  apply findSome?_unique
  · refine ⟨b, hb, ?_⟩
    intro hn
    exact (branchPrefix?_eq_none_iff p b).mp hn (b.get ⟨j, hj⟩) (List.get_mem b j hj) hhash
  · intro b' hb' q hq
    obtain ⟨j', hj', hq', hhash'⟩ := branchPrefix?_some_spec p b' q hq
    rw [hq']
    exact coh_take t hcoh b' hb' b hb j' j hj' hj (by rw [hhash', hhash])

/-- Under the invariant, if some branch's tip has hash `p` and `p` occurs at
position `j` of branch `b`, that tip branch is exactly `b.take (j+1)`. -/
theorem tip_branch_eq (net : Network) (t : Tree) (hwf : WF net t)
    (p : Nat) (b : List Header) (hb : b ∈ t.branches) (j : Nat) (hj : j < b.length)
    (hhash : headerHash (b.get ⟨j, hj⟩) = p)
    (b' : List Header) (hb' : b' ∈ t.branches) (htip : lastHash b' = p) :
    b' = b.take (j + 1) := by
  obtain ⟨-, hprops, hcoh, -⟩ := hwf
  have hne : b' ≠ [] := (hprops b' hb').1
  have hlt : b'.length - 1 < b'.length := by
    cases b' with
    | nil => exact absurd rfl hne
    | cons y rest => simp
  have hh' : headerHash (b'.get ⟨b'.length - 1, hlt⟩) = p := by
    rw [← lastHash_get b' hlt]
    exact htip
  have h := coh_take t hcoh b' hb' b hb (b'.length - 1) j hlt hj (by rw [hh', hhash])
  have hfull : b'.length - 1 + 1 = b'.length := by omega
  rw [hfull, List.take_length] at h
  exact h

/-! ## Canonical selection: decomposition characterisations -/

theorem selectBest_decomp (net : Network) :
    ∀ (l : List (List Header)) (c : List Header), selectBest net l = some c →
      ∃ l1 l2, l = l1 ++ c :: l2 ∧
        (∀ x ∈ l1, chainWork net x < chainWork net c) ∧
        (∀ x ∈ l2, chainWork net x ≤ chainWork net c) := by
  intro l
  induction l with
  | nil => intro c h; cases h
  | cons b bs ih =>
    intro c h
    unfold selectBest at h
    split at h
    · rename_i heq
      cases h
      cases bs with
      | nil => exact ⟨[], [], rfl, by simp, by simp⟩
      | cons b' bs' => exact absurd heq (selectBest_cons_ne_none net b' bs')
    · rename_i d heq
      split at h <;> rename_i hw <;> cases h
      · obtain ⟨l1, l2, hdec, hstrict, hle⟩ := ih _ heq
        refine ⟨b :: l1, l2, by rw [hdec]; rfl, ?_, hle⟩
        intro x hx
        rcases List.mem_cons.mp hx with rfl | hx'
        · exact hw
        · exact hstrict x hx'
      · refine ⟨[], bs, rfl, by simp, ?_⟩
        intro x hx
        have := selectBest_le net bs d heq x hx
        omega

theorem selectBest_of_decomp (net : Network) :
    ∀ (l1 : List (List Header)) (c : List Header) (l2 : List (List Header)),
      (∀ x ∈ l1, chainWork net x < chainWork net c) →
      (∀ x ∈ l2, chainWork net x ≤ chainWork net c) →
      selectBest net (l1 ++ c :: l2) = some c := by
  intro l1
  induction l1 with
  | nil =>
    intro c l2 _ hle
    rw [List.nil_append]
    cases hsel : selectBest net l2 with
    | none =>
      unfold selectBest
      rw [hsel]
    | some d =>
      unfold selectBest
      rw [hsel]
      have hd : chainWork net d ≤ chainWork net c :=
        hle d (selectBest_mem net l2 d hsel)
      show (if chainWork net d > chainWork net c then some d else some c) = some c
      rw [if_neg (by omega)]
  | cons a l1' ih =>
    intro c l2 hstrict hle
    rw [List.cons_append]
    unfold selectBest
    rw [ih c l2 (fun x hx => hstrict x (List.mem_cons_of_mem _ hx)) hle]
    show (if chainWork net c > chainWork net a then some c else some a) = some c
    rw [if_pos (hstrict a (List.mem_cons_self _ _))]

/-- Splitting a list at an element that occurs only once is unambiguous. -/
theorem unique_split {α : Type} [DecidableEq α] (c : α) :
    ∀ (l1 m1 l2 m2 : List α), l1 ++ c :: l2 = m1 ++ c :: m2 → c ∉ l1 → c ∉ m1 →
      l1 = m1 ∧ l2 = m2 := by
  intro l1
  induction l1 with
  | nil =>
    intro m1 l2 m2 heq _ hcm
    cases m1 with
    | nil =>
      rw [List.nil_append, List.nil_append] at heq
      exact ⟨rfl, (List.cons.injEq .. ▸ heq).2⟩
    | cons a m1' =>
      rw [List.nil_append, List.cons_append] at heq
      obtain ⟨rfl, -⟩ := List.cons.injEq .. ▸ heq
      exact absurd (List.mem_cons_self _ _) hcm
  | cons a l1' ih =>
    intro m1 l2 m2 heq hcl hcm
    cases m1 with
    | nil =>
      rw [List.cons_append, List.nil_append] at heq
      obtain ⟨rfl, -⟩ := List.cons.injEq .. ▸ heq
      exact absurd (List.mem_cons_self _ _) hcl
    | cons b m1' =>
      rw [List.cons_append, List.cons_append] at heq
      obtain ⟨rfl, heq'⟩ := List.cons.injEq .. ▸ heq
      obtain ⟨h1, h2⟩ := ih m1' l2 m2 heq'
        (fun hm => hcl (List.mem_cons_of_mem _ hm))
        (fun hm => hcm (List.mem_cons_of_mem _ hm))
      exact ⟨by rw [h1], h2⟩

/-! ## Invariant preservation when a validated header joins the forest -/

/-- Inserting a validated, fresh header `h` on top of the ancestor prefix
`b.take (j+1)` — replacing a branch (when `m1/m2` split the old branch
list at that prefix) or starting a new branch (when `m1` is the whole old
list) — preserves the representation invariant, and adds exactly the one
hash. -/
theorem WF_insert (net : Network) (t : Tree) (hwf : WF net t) (b : List Header)
    (hb : b ∈ t.branches) (j : Nat) (hj : j < b.length) (h : Header)
    (hfresh : headerHash h ∉ t.hashes)
    (hprev : h.prevBlock = headerHash (b.get ⟨j, hj⟩))
    (hcp : checkpointValid net (j + 1) h = true)
    (m1 m2 : List (List Header))
    (hsides : ∀ x, x ∈ m1 ∨ x ∈ m2 → x ∈ t.branches)
    (hsnodup : (m1 ++ m2).Nodup)
    (hcover : ∀ y ∈ t.branches, (y ∈ m1 ∨ y ∈ m2) ∨ y = b.take (j + 1)) :
    WF net ⟨m1 ++ (b.take (j + 1) ++ [h]) :: m2⟩ ∧
      (∀ x, x ∈ Tree.hashes ⟨m1 ++ (b.take (j + 1) ++ [h]) :: m2⟩ ↔
        x ∈ t.hashes ∨ x = headerHash h) := by
  obtain ⟨hne, hprops, hcoh, hnodup⟩ := hwf
  set q := b.take (j + 1) with hq
  set nb := q ++ [h] with hnb
  have hqlen : q.length = j + 1 := by
    rw [hq, List.length_take]
    omega
  have hnblen : nb.length = j + 2 := by
    rw [hnb, List.length_append, hqlen]
    rfl
  obtain ⟨hbne, hbhead, hblink, hbcp⟩ := hprops b hb
  -- properties of the prefix q
  have hqne : q ≠ [] := by
    intro hqq
    rw [hqq] at hqlen
    cases hqlen
  have hqsub : ∀ hd ∈ q, hd ∈ b := fun hd hm =>
    (List.take_prefix (j + 1) b).sublist.subset hm
  -- facts about positions of nb
  have hget_last : ∀ hlt : j + 1 < nb.length, nb.get ⟨j + 1, hlt⟩ = h := by
    intro hlt
    have h2 : q.length < nb.length := by rw [hqlen]; exact hlt
    have heq : (⟨j + 1, hlt⟩ : Fin nb.length) = ⟨q.length, h2⟩ :=
      Fin.ext (show j + 1 = q.length by rw [hqlen])
    rw [heq]
    exact get_concat_self q h h2
  have hget_lt : ∀ k, k < j + 1 → ∀ hklt : k < nb.length,
      ∃ hkb : k < b.length, nb.get ⟨k, hklt⟩ = b.get ⟨k, hkb⟩ := by
    intro k hk hklt
    have hkb : k < b.length := by omega
    have hkq : k < q.length := by rw [hqlen]; exact hk
    refine ⟨hkb, ?_⟩
    rw [get_append_left' q [h] k hkq hklt]
    exact get_take' b (j + 1) k hk hkb hkq
  have htake_lt : ∀ k, k < j + 1 → nb.take (k + 1) = b.take (k + 1) := by
    intro k hk
    rw [hnb, take_append_left' q [h] (k + 1) (by rw [hqlen]; omega)]
    exact take_take_succ b j k (by omega)
  -- freshness consequences
  have hnotold : ∀ x ∈ t.branches, h ∉ x := by
    intro x hx hmem
    exact hfresh (mem_hashesOf.mpr ⟨x, hx, h, hmem, rfl⟩)
  have hhash_old : ∀ x, x ∈ t.branches → ∀ hd ∈ x, headerHash hd ≠ headerHash h := by
    intro x hx hd hm hcontra
    exact hfresh (hcontra ▸ mem_hashesOf.mpr ⟨x, hx, hd, hm, rfl⟩)
  have hnbnotin : nb ∉ m1 ++ m2 := by
    intro hmem
    have hin : nb ∈ t.branches := hsides nb (List.mem_append.mp hmem)
    exact hnotold nb hin (by rw [hnb]; exact List.mem_append.mpr (Or.inr (List.mem_singleton.mpr rfl)))
  -- the representation of each position of the new branch list
  have hrepr : ∀ x ∈ (m1 ++ nb :: m2), ∀ i : Fin x.length,
      (∃ x', ∃ _ : x' ∈ t.branches, ∃ hi' : i.1 < x'.length,
        x.get i = x'.get ⟨i.1, hi'⟩ ∧ x.take (i.1 + 1) = x'.take (i.1 + 1)) ∨
      (x = nb ∧ i.1 = j + 1) := by
    intro x hx i
    rcases List.mem_append.mp hx with hx1 | hx2
    · exact Or.inl ⟨x, hsides x (Or.inl hx1), i.2, rfl, rfl⟩
    rcases List.mem_cons.mp hx2 with rfl | hx3
    · have hi2 : i.1 < j + 2 := by rw [← hnblen]; exact i.2
      by_cases hcase : i.1 < j + 1
      · obtain ⟨hkb, hgg⟩ := hget_lt i.1 hcase i.2
        exact Or.inl ⟨b, hb, hkb, hgg, htake_lt i.1 hcase⟩
      · exact Or.inr ⟨rfl, by omega⟩
    · exact Or.inl ⟨x, hsides x (Or.inr hx3), i.2, rfl, rfl⟩
  constructor
  · refine ⟨by simp, ?_, ?_, ?_⟩
    · -- per-branch properties
      intro x hx
      rcases List.mem_append.mp hx with hx1 | hx2
      · exact hprops x (hsides x (Or.inl hx1))
      rcases List.mem_cons.mp hx2 with rfl | hx3
      · refine ⟨by rw [hnb]; simp, ?_, ?_, ?_⟩
        · -- head is genesis
          rw [hnb, List.head?_append]
          have hqhead : q.head? = some net.genesis := by
            rw [hq, head?_take_succ, hbhead]
          rw [hqhead]
          rfl
        · -- linked
          refine chainLinked_snoc q h (chainLinked_take b (j + 1) hblink) ?_ hqne
          rw [lastHash_take b j hj]
          exact hprev
        · -- checkpoints
          unfold checkpointsOk
          rw [hnb, checkpointsOkFrom_snoc net q 0 h, hqlen]
          have h1 : checkpointsOkFrom net 0 q = true :=
            checkpointsOkFrom_take net b 0 (j + 1) hbcp
          rw [h1, Bool.true_and]
          simpa using hcp
      · exact hprops x (hsides x (Or.inr hx3))
    · -- coherence
      intro b1 hb1 b2 hb2 i1 i2 hh
      rcases hrepr b1 hb1 i1 with ⟨x1, hx1, hi1, hg1, ht1⟩ | ⟨rfl, hieq1⟩
      · rcases hrepr b2 hb2 i2 with ⟨x2, hx2, hi2, hg2, ht2⟩ | ⟨rfl, hieq2⟩
        · rw [hg1, hg2] at hh
          rw [ht1, ht2]
          exact coh_take t hcoh x1 hx1 x2 hx2 i1.1 i2.1 hi1 hi2 hh
        · rw [hg1, (by exact Fin.ext hieq2 : i2 = ⟨j + 1, hieq2 ▸ i2.2⟩), hget_last _] at hh
          exact absurd hh (hhash_old x1 hx1 _ (List.get_mem _ _ _))
      · rcases hrepr b2 hb2 i2 with ⟨x2, hx2, hi2, hg2, ht2⟩ | ⟨rfl, hieq2⟩
        · rw [hg2, (by exact Fin.ext hieq1 : i1 = ⟨j + 1, hieq1 ▸ i1.2⟩), hget_last _] at hh
          exact absurd hh.symm (hhash_old x2 hx2 _ (List.get_mem _ _ _))
        · rw [hieq1, hieq2]
    · -- nodup
      rw [List.nodup_middle]
      exact List.nodup_cons.mpr ⟨hnbnotin, hsnodup⟩
  · -- the hash set grows by exactly headerHash h
    intro x
    constructor
    · intro hx
      obtain ⟨br, hbr, hd, hm, rfl⟩ := mem_hashesOf.mp hx
      rcases List.mem_append.mp hbr with hbr1 | hbr2
      · exact Or.inl (mem_hashesOf.mpr ⟨br, hsides br (Or.inl hbr1), hd, hm, rfl⟩)
      rcases List.mem_cons.mp hbr2 with rfl | hbr3
      · rw [hnb] at hm
        rcases List.mem_append.mp hm with hmq | hmh
        · exact Or.inl (mem_hashesOf.mpr ⟨b, hb, hd, hqsub hd hmq, rfl⟩)
        · rcases List.mem_singleton.mp hmh with rfl
          exact Or.inr rfl
      · exact Or.inl (mem_hashesOf.mpr ⟨br, hsides br (Or.inr hbr3), hd, hm, rfl⟩)
    · intro hx
      rcases hx with hx | rfl
      · obtain ⟨br, hbr, hd, hm, rfl⟩ := mem_hashesOf.mp hx
        rcases hcover br hbr with hside | rfl
        · refine mem_hashesOf.mpr ⟨br, ?_, hd, hm, rfl⟩
          rcases hside with h1 | h1
          · exact List.mem_append.mpr (Or.inl h1)
          · exact List.mem_append.mpr (Or.inr (List.mem_cons_of_mem _ h1))
        · refine mem_hashesOf.mpr ⟨nb, ?_, hd, ?_, rfl⟩
          · exact List.mem_append.mpr (Or.inr (List.mem_cons_self _ _))
          · rw [hnb]
            exact List.mem_append.mpr (Or.inl hm)
      · refine mem_hashesOf.mpr ⟨nb, ?_, h, ?_, rfl⟩
        · exact List.mem_append.mpr (Or.inr (List.mem_cons_self _ _))
        · rw [hnb]
          exact List.mem_append.mpr (Or.inr (List.mem_singleton.mpr rfl))

theorem knows_false_of_fresh (t : Tree) (h : Header)
    (hf : headerHash h ∉ t.hashes) : t.knows h = false := by
  cases hkn : t.knows h
  · rfl
  · exact absurd ((knows_iff t h).mp hkn) hf

theorem map_id_of {α : Type} (f : α → α) :
    ∀ (l : List α), (∀ x ∈ l, f x = x) → l.map f = l := by
  intro l
  induction l with
  | nil => intro _; rfl
  | cons a rest ih =>
    intro hall
    rw [List.map_cons, hall a (List.mem_cons_self _ _),
      ih fun x hx => hall x (List.mem_cons_of_mem _ hx)]

/-- Importing a fresh, validated header whose parent is the tip of the
branch `b` extends `b` in place. -/
theorem importOne_tip (net : Network) (now : Nat) (t : Tree) (hwf : WF net t)
    (b : List Header) (hb : b ∈ t.branches) (h : Header)
    (hfresh : headerHash h ∉ t.hashes)
    (hprev : h.prevBlock = lastHash b)
    (hchk : checkHeader net now b h = none)
    (m1 m2 : List (List Header)) (hdec : t.branches = m1 ++ b :: m2) :
    importOne net now t h = .ok ⟨m1 ++ (b ++ [h]) :: m2⟩ ∧
      WF net ⟨m1 ++ (b ++ [h]) :: m2⟩ ∧
      (∀ x, x ∈ Tree.hashes ⟨m1 ++ (b ++ [h]) :: m2⟩ ↔
        x ∈ t.hashes ∨ x = headerHash h) := by
  have hbne : b ≠ [] := ((hwf.2.1) b hb).1
  have hlen1 : 1 ≤ b.length := by
    cases b with
    | nil => exact absurd rfl hbne
    | cons y rest => simp
  have hj : b.length - 1 < b.length := by omega
  have hbfull : b.take (b.length - 1 + 1) = b := by
    have : b.length - 1 + 1 = b.length := by omega
    rw [this, List.take_length]
  have hhash : headerHash (b.get ⟨b.length - 1, hj⟩) = h.prevBlock := by
    rw [hprev, lastHash_get b hj]
  have hknow : t.knows h = false := knows_false_of_fresh t h hfresh
  have hfind : findPrefix t h.prevBlock = some b := by
    rw [← hbfull]
    exact findPrefix_eq net t hwf h.prevBlock b hb (b.length - 1) hj hhash
  have htip : hasTip t h.prevBlock = true := by
    unfold hasTip
    rw [List.any_eq_true]
    exact ⟨b, hb, beq_iff_eq.mpr hprev.symm⟩
  have hbnotm : b ∉ m1 ++ m2 := by
    have hnodup := hwf.2.2.2
    rw [hdec, List.nodup_middle] at hnodup
    exact (List.nodup_cons.mp hnodup).1
  have hmap : t.branches.map
      (fun x => if lastHash x == h.prevBlock then x ++ [h] else x) =
      m1 ++ (b ++ [h]) :: m2 := by
    rw [hdec, List.map_append, List.map_cons]
    have hfb : (if lastHash b == h.prevBlock then b ++ [h] else b) = b ++ [h] := by
      rw [if_pos (beq_iff_eq.mpr hprev.symm)]
    have hside : ∀ x, x ∈ m1 ∨ x ∈ m2 →
        (if lastHash x == h.prevBlock then x ++ [h] else x) = x := by
      intro x hx
      have hxb : x ∈ t.branches := by
        rw [hdec]
        rcases hx with hx | hx
        · exact List.mem_append.mpr (Or.inl hx)
        · exact List.mem_append.mpr (Or.inr (List.mem_cons_of_mem _ hx))
      by_cases hcond : lastHash x = h.prevBlock
      · have := tip_branch_eq net t hwf h.prevBlock b hb (b.length - 1) hj hhash x hxb hcond
        rw [hbfull] at this
        subst this
        exact absurd (List.mem_append.mpr hx) hbnotm
      · rw [if_neg (by simpa using hcond)]
    rw [map_id_of _ m1 fun x hx => hside x (Or.inl hx),
      map_id_of _ m2 fun x hx => hside x (Or.inr hx), hfb]
  have hrun : importOne net now t h = .ok ⟨m1 ++ (b ++ [h]) :: m2⟩ := by
    unfold importOne
    rw [hknow]
    simp only [Bool.false_eq_true, if_false, hfind, htip, hchk, if_true]
    rw [hmap]
  refine ⟨hrun, ?_⟩
  have hcpv : checkpointValid net (b.length - 1 + 1) h = true := by
    have h1 := (checkHeader_none_iff net now b h).mp hchk
    have : b.length - 1 + 1 = b.length := by omega
    rw [this]
    exact h1.2.2
  have hins := WF_insert net t hwf b hb (b.length - 1) hj h hfresh hhash.symm hcpv m1 m2
    (fun x hx => by
      rw [hdec]
      rcases hx with hx | hx
      · exact List.mem_append.mpr (Or.inl hx)
      · exact List.mem_append.mpr (Or.inr (List.mem_cons_of_mem _ hx)))
    (by
      have hnodup := hwf.2.2.2
      rw [hdec, List.nodup_middle] at hnodup
      exact (List.nodup_cons.mp hnodup).2)
    (fun y hy => by
      rw [hdec] at hy
      rcases List.mem_append.mp hy with hy | hy
      · exact Or.inl (Or.inl hy)
      · rcases List.mem_cons.mp hy with rfl | hy'
        · exact Or.inr hbfull.symm
        · exact Or.inl (Or.inr hy'))
  rw [hbfull] at hins
  exact hins

/-- Importing a fresh, validated header whose parent occurs at position `j`
of branch `b` but is no branch's tip starts a new branch at the fork
point, appended last. -/
theorem importOne_fork (net : Network) (now : Nat) (t : Tree) (hwf : WF net t)
    (b : List Header) (hb : b ∈ t.branches) (j : Nat) (hj : j < b.length) (h : Header)
    (hfresh : headerHash h ∉ t.hashes)
    (hprev : h.prevBlock = headerHash (b.get ⟨j, hj⟩))
    (hchk : checkHeader net now (b.take (j + 1)) h = none)
    (hnotip : hasTip t h.prevBlock = false) :
    importOne net now t h = .ok ⟨t.branches ++ (b.take (j + 1) ++ [h]) :: []⟩ ∧
      WF net ⟨t.branches ++ (b.take (j + 1) ++ [h]) :: []⟩ ∧
      (∀ x, x ∈ Tree.hashes ⟨t.branches ++ (b.take (j + 1) ++ [h]) :: []⟩ ↔
        x ∈ t.hashes ∨ x = headerHash h) := by
  have hknow : t.knows h = false := knows_false_of_fresh t h hfresh
  have hfind : findPrefix t h.prevBlock = some (b.take (j + 1)) :=
    findPrefix_eq net t hwf h.prevBlock b hb j hj hprev.symm
  have hrun : importOne net now t h = .ok ⟨t.branches ++ (b.take (j + 1) ++ [h]) :: []⟩ := by
    unfold importOne
    rw [hknow]
    simp only [Bool.false_eq_true, if_false, hfind, hchk, hnotip]
  refine ⟨hrun, ?_⟩
  have hcpv : checkpointValid net (j + 1) h = true := by
    have h1 := (checkHeader_none_iff net now (b.take (j + 1)) h).mp hchk
    have hlen : (b.take (j + 1)).length = j + 1 := by
      rw [List.length_take]
      omega
    rw [hlen] at h1
    exact h1.2.2
  exact WF_insert net t hwf b hb j hj h hfresh hprev hcpv t.branches []
    (fun x hx => by
      rcases hx with hx | hx
      · exact hx
      · cases hx)
    (by rw [List.append_nil]; exact hwf.2.2.2)
    (fun y hy => Or.inl (Or.inl hy))

theorem goodExtension_cons_iff (net : Network) (now : Nat) (seen : List Nat)
    (c : List Header) (h : Header) (rest : List Header) :
    goodExtension net now seen c (h :: rest) = true ↔
      h.prevBlock = lastHash c ∧ headerHash h ∉ seen ∧
        checkHeader net now c h = none ∧
        goodExtension net now (seen ++ [headerHash h]) (c ++ [h]) rest = true := by
  show ((h.prevBlock == lastHash c) && (decide (headerHash h ∉ seen)) &&
      (decide (checkHeader net now c h = none)) &&
      goodExtension net now (seen ++ [headerHash h]) (c ++ [h]) rest) = true ↔ _
  simp only [Bool.and_eq_true, beq_iff_eq, decide_eq_true_eq]
  tauto

/-- The heart of C1 and C2: applying a valid extension of the chain `g`
(sitting between `m1` and `m2` in the branch list) grows that branch in
place, preserves the invariant, and adds exactly the extension's hashes. -/
theorem importGo_extend (net : Network) (now : Nat) :
    ∀ (hs : List Header) (t : Tree) (g : List Header) (m1 m2 : List (List Header))
      (seen : List Nat),
      WF net t → t.branches = m1 ++ g :: m2 →
      (∀ x, x ∈ seen ↔ x ∈ t.hashes) →
      goodExtension net now seen g hs = true →
      importGo net now t hs = (⟨m1 ++ (g ++ hs) :: m2⟩, none) ∧
        WF net ⟨m1 ++ (g ++ hs) :: m2⟩ ∧
        (∀ x, x ∈ Tree.hashes ⟨m1 ++ (g ++ hs) :: m2⟩ ↔
          x ∈ seen ∨ x ∈ hs.map headerHash) := by
  intro hs
  induction hs with
  | nil =>
    intro t g m1 m2 seen hwf hdec hseen _
    have ht : t = ⟨m1 ++ (g ++ []) :: m2⟩ := by
      rw [List.append_nil]
      cases t with
      | mk br => rw [show Tree.mk br = ⟨br⟩ from rfl]; exact congrArg Tree.mk hdec
    refine ⟨by rw [← ht]; rfl, by rw [← ht]; exact hwf, ?_⟩
    intro x
    rw [← ht]
    simp only [List.map_nil, List.not_mem_nil, or_false]
    exact (hseen x).symm
  | cons h rest ih =>
    intro t g m1 m2 seen hwf hdec hseen hgood
    obtain ⟨hlink, hfreshseen, hchk, hgoodrest⟩ :=
      (goodExtension_cons_iff net now seen g h rest).mp hgood
    have hfresh : headerHash h ∉ t.hashes := fun hh => hfreshseen ((hseen _).mpr hh)
    have hg : g ∈ t.branches := by
      rw [hdec]
      exact List.mem_append.mpr (Or.inr (List.mem_cons_self _ _))
    obtain ⟨hrun, hwf1, hhash1⟩ :=
      importOne_tip net now t hwf g hg h hfresh hlink hchk m1 m2 hdec
    have hseen1 : ∀ x, x ∈ seen ++ [headerHash h] ↔
        x ∈ Tree.hashes ⟨m1 ++ (g ++ [h]) :: m2⟩ := by
      intro x
      rw [hhash1 x, List.mem_append, List.mem_singleton, hseen x]
    obtain ⟨hgo, hwf2, hhash2⟩ := ih ⟨m1 ++ (g ++ [h]) :: m2⟩ (g ++ [h]) m1 m2
      (seen ++ [headerHash h]) hwf1 rfl hseen1 hgoodrest
    have hassoc : (g ++ [h]) ++ rest = g ++ h :: rest := by
      rw [List.append_assoc]
      rfl
    rw [hassoc] at hgo hwf2 hhash2
    refine ⟨?_, hwf2, ?_⟩
    · simp only [importGo, hrun]
      exact hgo
    · intro x
      rw [hhash2 x, List.mem_append, List.mem_singleton, List.map_cons, List.mem_cons]
      tauto

/-! ## The import outcome on an extension or a fork -/

theorem commonPrefixLen_append_common :
    ∀ (x u v : List Header), commonPrefixLen (x ++ u) (x ++ v) =
      x.length + commonPrefixLen u v := by
  intro x
  induction x with
  | nil =>
    intro u v
    rw [List.nil_append, List.nil_append]
    simp
  | cons a rest ih =>
    intro u v
    show (if a = a then commonPrefixLen (rest ++ u) (rest ++ v) + 1 else 0) = _
    rw [if_pos rfl, ih u v, List.length_cons]
    omega

theorem commonPrefixLen_nil_left (v : List Header) : commonPrefixLen [] v = 0 := by
  cases v <;> rfl

theorem commonPrefixLen_cons_ne (a b : Header) (u v : List Header) (hne : a ≠ b) :
    commonPrefixLen (a :: u) (b :: v) = 0 := by
  show (if a = b then commonPrefixLen u v + 1 else 0) = 0
  rw [if_neg hne]

theorem chainWork_eq_of_eq (net : Network) (a b : List Header) (h : a = b) :
    chainWork net a = chainWork net b := by rw [h]

theorem outcomeOf_extend (c hs : List Header) (hne : hs ≠ []) :
    outcomeOf c (c ++ hs) =
      .tipAdvanced (lastHash (c ++ hs)) ((c ++ hs).length - 1) := by
  unfold outcomeOf
  have hneq : c ++ hs ≠ c := by
    intro hq
    have := congrArg List.length hq
    rw [List.length_append] at this
    have : hs.length = 0 := by omega
    exact hne (List.length_eq_zero.mp this)
  rw [if_neg hneq]
  have hk : commonPrefixLen c (c ++ hs) = c.length := by
    have h1 := commonPrefixLen_append_common c [] hs
    rw [List.append_nil] at h1
    rw [h1, commonPrefixLen_nil_left]
    omega
  rw [if_pos hk]

/-- **C2.**  For every well-formed tree state and every nonempty valid
header sequence extending the canonical tip, import succeeds with a
tip-advanced outcome, the new canonical chain is the old one plus the new
headers, `get_tip` returns the last new header, and the height grows by
exactly the number of headers imported. -/
theorem c2_import_extends_tip (net : Network) (now : Nat) (t : Tree)
    (c : List Header) (hs : List Header) (hwf : WF net t) (hne : hs ≠ [])
    (hsel : selectBest net t.branches = some c)
    (hgood : goodExtension net now t.hashes c hs = true) :
    ∃ t', importHeaders net now t hs =
        (t', .ok (ImportOutcome.tipAdvanced (lastHash (c ++ hs))
          ((c ++ hs).length - 1))) ∧
      canonicalChain net t' = c ++ hs ∧
      getTip net t' = hs.getLast? ∧
      Tree.height net t' = Tree.height net t + hs.length := by
  obtain ⟨l1, l2, hdec, hstrict, hle⟩ := selectBest_decomp net t.branches c hsel
  obtain ⟨hgo, hwf', hhash'⟩ := importGo_extend net now hs t c l1 l2 t.hashes hwf hdec
    (fun _ => Iff.rfl) hgood
  have hcne : c ≠ [] := (hwf.2.1 c (selectBest_mem net t.branches c hsel)).1
  have hclen : 1 ≤ c.length := by
    cases c with
    | nil => exact absurd rfl hcne
    | cons y rest => simp
  have hwle : chainWork net c ≤ chainWork net (c ++ hs) := chainWork_le_append net c hs
  have hsel' : selectBest net (l1 ++ (c ++ hs) :: l2) = some (c ++ hs) :=
    selectBest_of_decomp net l1 (c ++ hs) l2
      (fun x hx => lt_of_lt_of_le (hstrict x hx) hwle)
      (fun x hx => le_trans (hle x hx) hwle)
  have hcanon : canonicalChain net t = c := by
    unfold canonicalChain
    rw [hsel]
    rfl
  have hcanon' : canonicalChain net ⟨l1 ++ (c ++ hs) :: l2⟩ = c ++ hs := by
    unfold canonicalChain
    rw [show (⟨l1 ++ (c ++ hs) :: l2⟩ : Tree).branches = l1 ++ (c ++ hs) :: l2 from rfl,
      hsel']
    rfl
  refine ⟨⟨l1 ++ (c ++ hs) :: l2⟩, ?_, hcanon', ?_, ?_⟩
  · unfold importHeaders
    rw [hgo]
    show (Tree.mk (l1 ++ (c ++ hs) :: l2), Except.ok (outcomeOf (canonicalChain net t)
      (canonicalChain net (Tree.mk (l1 ++ (c ++ hs) :: l2))))) = _
    rw [hcanon, hcanon', outcomeOf_extend c hs hne]
  · unfold getTip
    rw [hcanon']
    exact List.getLast?_append_of_ne_nil c hne
  · unfold Tree.height
    rw [hcanon, hcanon', List.length_append]
    omega

/-! ## Witness chains for C2 -/

def wT1 : Tree := ⟨[[wG, wA1]]⟩

/-- **C2 witness**: importing the one-header extension `wA2` of the
canonical chain `wG, wA1` advances the tip to `wA2` and raises the height
from 1 to 2. -/
theorem c2_witness :
    ∃ t', importHeaders wNet 1000 wT1 [wA2] =
        (t', .ok (ImportOutcome.tipAdvanced (lastHash ([wG, wA1] ++ [wA2]))
          (([wG, wA1] ++ [wA2]).length - 1))) ∧
      canonicalChain wNet t' = [wG, wA1] ++ [wA2] ∧
      getTip wNet t' = [wA2].getLast? ∧
      Tree.height wNet t' = Tree.height wNet wT1 + [wA2].length :=
  c2_import_extends_tip wNet 1000 wT1 [wG, wA1] [wA2] (by decide)
    (by decide) (by decide) (by decide)

/-- Importing a fresh, validated header attaching to position `p` of the
chain `c` (tip of an existing branch or an interior fork point) yields a
branch list holding the grown branch `c.take (p+1) ++ [h]`, with all other
branches carried over from the old tree. -/
theorem importOne_attach (net : Network) (now : Nat) (t : Tree) (hwf : WF net t)
    (c : List Header) (hc : c ∈ t.branches) (p : Nat) (hp : p < c.length) (h : Header)
    (hfresh : headerHash h ∉ t.hashes)
    (hprev : h.prevBlock = lastHash (c.take (p + 1)))
    (hchk : checkHeader net now (c.take (p + 1)) h = none) :
    ∃ m1 m2, importOne net now t h = .ok ⟨m1 ++ (c.take (p + 1) ++ [h]) :: m2⟩ ∧
      WF net ⟨m1 ++ (c.take (p + 1) ++ [h]) :: m2⟩ ∧
      (∀ x, x ∈ Tree.hashes ⟨m1 ++ (c.take (p + 1) ++ [h]) :: m2⟩ ↔
        x ∈ t.hashes ∨ x = headerHash h) ∧
      (∀ x, x ∈ m1 ∨ x ∈ m2 → x ∈ t.branches) := by
  have hprev' : h.prevBlock = headerHash (c.get ⟨p, hp⟩) := by
    rw [hprev, lastHash_take c p hp]
  cases htip : hasTip t h.prevBlock with
  | false =>
    obtain ⟨hrun, hwf', hhash'⟩ :=
      importOne_fork net now t hwf c hc p hp h hfresh hprev' hchk htip
    refine ⟨t.branches, [], hrun, hwf', hhash', ?_⟩
    intro x hx
    rcases hx with hx | hx
    · exact hx
    · cases hx
  | true =>
    have htip' := htip
    unfold hasTip at htip'
    obtain ⟨b', hb', hbeq⟩ := List.any_eq_true.mp htip'
    have htipeq : lastHash b' = h.prevBlock := beq_iff_eq.mp hbeq
    have hbeq' : b' = c.take (p + 1) :=
      tip_branch_eq net t hwf h.prevBlock c hc p hp hprev'.symm b' hb' htipeq
    rw [hbeq'] at hb' htipeq
    obtain ⟨m1, m2, hdec⟩ := List.append_of_mem hb'
    obtain ⟨hrun, hwf', hhash'⟩ := importOne_tip net now t hwf (c.take (p + 1)) hb' h
      hfresh htipeq.symm hchk m1 m2 hdec
    refine ⟨m1, m2, hrun, hwf', hhash', ?_⟩
    intro x hx
    rw [hdec]
    rcases hx with hx | hx
    · exact List.mem_append.mpr (Or.inl hx)
    · exact List.mem_append.mpr (Or.inr (List.mem_cons_of_mem _ hx))

/-- **C1.**  For every well-formed tree state and every valid competing
branch — forking from the canonical chain `c` below its tip and carrying
strictly greater cumulative work — the import succeeds with a reorg
outcome whose reverted list is exactly the old canonical headers above the
fork point in descending height order, and the tip afterwards is the new
branch's tip. -/
theorem c1_reorg_on_heavier_branch (net : Network) (now : Nat) (t : Tree)
    (c : List Header) (p : Nat) (hs : List Header)
    (hwf : WF net t) (hsel : selectBest net t.branches = some c)
    (hp : p + 1 < c.length) (hne : hs ≠ [])
    (hgood : goodExtension net now t.hashes (c.take (p + 1)) hs = true)
    (hwork : chainWork net c < chainWork net (c.take (p + 1) ++ hs)) :
    ∃ t', importHeaders net now t hs = (t',
        .ok (ImportOutcome.reorg (lastHash (c.take (p + 1) ++ hs))
          ((c.take (p + 1) ++ hs).length - 1) ((c.drop (p + 1)).reverse))) ∧
      canonicalChain net t' = c.take (p + 1) ++ hs ∧
      getTip net t' = hs.getLast? := by
  cases hs with
  | nil => exact absurd rfl hne
  | cons h1 rest =>
  obtain ⟨hlink, hfreshseen, hchk1, hgoodrest⟩ :=
    (goodExtension_cons_iff net now t.hashes (c.take (p + 1)) h1 rest).mp hgood
  have hc : c ∈ t.branches := selectBest_mem net t.branches c hsel
  have hplt : p < c.length := by omega
  obtain ⟨m1, m2, hrun1, hwf1, hhash1, hsides⟩ :=
    importOne_attach net now t hwf c hc p hplt h1 hfreshseen hlink hchk1
  have hseen1 : ∀ x, x ∈ t.hashes ++ [headerHash h1] ↔
      x ∈ Tree.hashes ⟨m1 ++ (c.take (p + 1) ++ [h1]) :: m2⟩ := by
    intro x
    rw [hhash1 x, List.mem_append, List.mem_singleton]
  obtain ⟨hgo, hwf2, hhash2⟩ := importGo_extend net now rest
    ⟨m1 ++ (c.take (p + 1) ++ [h1]) :: m2⟩ (c.take (p + 1) ++ [h1]) m1 m2
    (t.hashes ++ [headerHash h1]) hwf1 rfl hseen1 hgoodrest
  have hassoc : (c.take (p + 1) ++ [h1]) ++ rest = c.take (p + 1) ++ h1 :: rest := by
    rw [List.append_assoc]
    rfl
  rw [hassoc] at hgo hwf2 hhash2
  set newc := c.take (p + 1) ++ h1 :: rest with hnewc
  have hgofull : importGo net now t (h1 :: rest) = (⟨m1 ++ newc :: m2⟩, none) := by
    simp only [importGo, hrun1]
    exact hgo
  -- final canonical selection: the new branch is the unique maximum
  have hsel' : selectBest net (m1 ++ newc :: m2) = some newc := by
    apply selectBest_of_decomp
    · intro x hx
      exact lt_of_le_of_lt (selectBest_le net t.branches c hsel x (hsides x (Or.inl hx)))
        hwork
    · intro x hx
      exact le_of_lt (lt_of_le_of_lt
        (selectBest_le net t.branches c hsel x (hsides x (Or.inr hx))) hwork)
  have hcanon : canonicalChain net t = c := by
    unfold canonicalChain
    rw [hsel]
    rfl
  have hcanon' : canonicalChain net ⟨m1 ++ newc :: m2⟩ = newc := by
    unfold canonicalChain
    rw [show (⟨m1 ++ newc :: m2⟩ : Tree).branches = m1 ++ newc :: m2 from rfl, hsel']
    rfl
  -- the outcome is a reorg at fork point p+1
  have hp1 : p + 1 < c.length := hp
  have hcsplit : c = c.take (p + 1) ++ c.drop (p + 1) := (List.take_append_drop _ c).symm
  have hdropcons : c.drop (p + 1) = c.get ⟨p + 1, hp1⟩ :: c.drop (p + 2) :=
    List.drop_eq_get_cons hp1
  have hhead_ne : c.get ⟨p + 1, hp1⟩ ≠ h1 := by
    intro heq
    apply hfreshseen
    rw [← heq]
    exact mem_hashesOf.mpr ⟨c, hc, _, List.get_mem c (p + 1) hp1, rfl⟩
  have htklen : (c.take (p + 1)).length = p + 1 := by
    rw [List.length_take]
    omega
  have hk : commonPrefixLen c newc = p + 1 := by
    conv_lhs => rw [hcsplit]
    rw [hnewc, commonPrefixLen_append_common, hdropcons,
      commonPrefixLen_cons_ne _ _ _ _ hhead_ne, htklen]
  have hneq : newc ≠ c := by
    intro heq
    rw [← heq] at hwork
    exact lt_irrefl _ hwork
  have houtcome : outcomeOf c newc = ImportOutcome.reorg (lastHash newc)
      (newc.length - 1) ((c.drop (p + 1)).reverse) := by
    unfold outcomeOf
    rw [if_neg hneq, hk]
    rw [if_neg (by omega)]
  refine ⟨⟨m1 ++ newc :: m2⟩, ?_, hcanon', ?_⟩
  · unfold importHeaders
    rw [hgofull]
    show (Tree.mk (m1 ++ newc :: m2), Except.ok (outcomeOf (canonicalChain net t)
      (canonicalChain net (Tree.mk (m1 ++ newc :: m2))))) = _
    rw [hcanon, hcanon', houtcome]
  · unfold getTip
    rw [hcanon', hnewc]
    exact List.getLast?_append_of_ne_nil _ (by simp)

/-- **C1 witness**: on the canonical chain `wG, wA1, wA2`, the competing
branch `wB1, wB2, wB3` forking at genesis carries work 8 > 6 and triggers
a reorg reverting `wA2, wA1` (descending) with new tip `wB3`. -/
theorem c1_witness :
    ∃ t', importHeaders wNet 1000 wT2 [wB1, wB2, wB3] = (t',
        .ok (ImportOutcome.reorg (lastHash ([wG, wA1, wA2].take 1 ++ [wB1, wB2, wB3]))
          (([wG, wA1, wA2].take 1 ++ [wB1, wB2, wB3]).length - 1)
          (([wG, wA1, wA2].drop 1).reverse))) ∧
      canonicalChain wNet t' = [wG, wA1, wA2].take 1 ++ [wB1, wB2, wB3] ∧
      getTip wNet t' = [wB1, wB2, wB3].getLast? :=
  c1_reorg_on_heavier_branch wNet 1000 wT2 [wG, wA1, wA2] 0 [wB1, wB2, wB3]
    (by decide) (by decide) (by decide) (by decide) (by decide) (by decide)

end Nakamoto
